import Mathlib

/-!
Verification of the `nb` blockchain node's ledger engine against its
natural-language specification.  The Rust sources are embedded shallowly:
pure functions become Lean functions, the `Sha256` digest of the `crypto`
crate is modelled bit-for-bit over `Nat`, struct mutation becomes explicit
state passing, and the panic of an out-of-bounds index is an `Option.none`
result.  The unbounded proof-of-work search loop is totalised with an
explicit fuel argument.
-/

namespace NB

/-! ## SHA-256, as computed by `crypto::sha2::Sha256` -/

/-- SHA-256 round constants: the first 32 bits of the fractional parts of the
cube roots of the first 64 primes. -/
def K : List Nat := [1116352408, 1899447441, 3049323471, 3921009573, 961987163, 1508970993, 2453635748, 2870763221, 3624381080, 310598401, 607225278, 1426881987, 1925078388, 2162078206, 2614888103, 3248222580, 3835390401, 4022224774, 264347078, 604807628, 770255983, 1249150122, 1555081692, 1996064986, 2554220882, 2821834349, 2952996808, 3210313671, 3336571891, 3584528711, 113926993, 338241895, 666307205, 773529912, 1294757372, 1396182291, 1695183700, 1986661051, 2177026350, 2456956037, 2730485921, 2820302411, 3259730800, 3345764771, 3516065817, 3600352804, 4094571909, 275423344, 430227734, 506948616, 659060556, 883997877, 958139571, 1322822218, 1537002063, 1747873779, 1955562222, 2024104815, 2227730452, 2361852424, 2428436474, 2756734187, 3204031479, 3329325298]

/-- SHA-256 state: eight 32-bit words. -/
structure H8 where
  a : Nat
  b : Nat
  c : Nat
  d : Nat
  e : Nat
  f : Nat
  g : Nat
  h : Nat
deriving Repr, DecidableEq

/-- SHA-256 initial state: the first 32 bits of the fractional parts of the
square roots of the first 8 primes. -/
def H0 : H8 := ⟨1779033703, 3144134277, 1013904242, 2773480762, 1359893119, 2600822924, 528734635, 1541459225⟩

/-- Rotate a 32-bit word right by n bits. -/
def rotr (n x : Nat) : Nat :=
  Nat.lor (Nat.shiftRight x n) (Nat.mod (Nat.shiftLeft x (32 - n)) 4294967296)

def bigS0 (x : Nat) : Nat := Nat.xor (rotr 2 x) (Nat.xor (rotr 13 x) (rotr 22 x))

def bigS1 (x : Nat) : Nat := Nat.xor (rotr 6 x) (Nat.xor (rotr 11 x) (rotr 25 x))

def smallS0 (x : Nat) : Nat := Nat.xor (rotr 7 x) (Nat.xor (rotr 18 x) (Nat.shiftRight x 3))

def smallS1 (x : Nat) : Nat := Nat.xor (rotr 17 x) (Nat.xor (rotr 19 x) (Nat.shiftRight x 10))

def ch (e f g : Nat) : Nat := Nat.xor (Nat.land e f) (Nat.land (Nat.xor e 4294967295) g)

def maj (a b c : Nat) : Nat := Nat.xor (Nat.land a b) (Nat.xor (Nat.land a c) (Nat.land b c))

/-- Extend the last 16 message-schedule words (given most-recent-first) by n
further words, returning the whole schedule oldest-first. -/
def schedExt (rev : List Nat) : Nat → List Nat
  | 0 => rev.reverse
  | n + 1 =>
    let w := Nat.mod
      (smallS1 (rev.getD 1 0) + rev.getD 6 0 + smallS0 (rev.getD 14 0) + rev.getD 15 0)
      4294967296
    schedExt (w :: rev) n

/-- The SHA-256 rounds, folding over paired round constants and schedule words. -/
def rounds : List (Nat × Nat) → H8 → H8
  | [], s => s
  | (k, w) :: rest, ⟨a, b, c, d, e, f, g, h⟩ =>
    let t1 := h + bigS1 e + ch e f g + k + w
    let t2 := bigS0 a + maj a b c
    rounds rest ⟨Nat.mod (t1 + t2) 4294967296, a, b, c, Nat.mod (d + t1) 4294967296, e, f, g⟩

/-- One SHA-256 compression step on a 16-word block. -/
def compress (s : H8) (block : List Nat) : H8 :=
  let ws := schedExt block.reverse 48
  let r := rounds (K.zip ws) s
  ⟨Nat.mod (s.a + r.a) 4294967296, Nat.mod (s.b + r.b) 4294967296,
   Nat.mod (s.c + r.c) 4294967296, Nat.mod (s.d + r.d) 4294967296,
   Nat.mod (s.e + r.e) 4294967296, Nat.mod (s.f + r.f) 4294967296,
   Nat.mod (s.g + r.g) 4294967296, Nat.mod (s.h + r.h) 4294967296⟩

/-- Big-endian bytes of a number, k bytes wide. -/
def beBytes : Nat → Nat → List Nat
  | 0, _ => []
  | k + 1, n => Nat.mod (Nat.shiftRight n (8 * k)) 256 :: beBytes k n

/-- SHA-256 padding: append 0x80, zero bytes up to 56 mod 64, then the bit
length as 8 big-endian bytes. -/
def padBytes (msg : List Nat) : List Nat :=
  let len := msg.length
  let zeros := Nat.mod (64 - Nat.mod (len + 9) 64) 64
  msg ++ 128 :: (List.replicate zeros 0 ++ beBytes 8 (8 * len))

/-- Group bytes into 32-bit big-endian words. -/
def toWords : List Nat → List Nat
  | b0 :: b1 :: b2 :: b3 :: rest => (((b0 * 256 + b1) * 256 + b2) * 256 + b3) :: toWords rest
  | _ => []

/-- Split a word list into 16-word blocks (fuel-driven structural recursion). -/
def toBlocks : Nat → List Nat → List (List Nat)
  | 0, _ => []
  | _, [] => []
  | fuel + 1, ws => ws.take 16 :: toBlocks fuel (ws.drop 16)

/-- SHA-256 of a byte list, as the final eight-word state. -/
def sha256 (msg : List Nat) : H8 :=
  let ws := toWords (padBytes msg)
  (toBlocks ws.length ws).foldl compress H0

/-- UTF-8 encoding of one character. -/
def utf8Bytes (c : Char) : List Nat :=
  let n := c.toNat
  if n < 128 then [n]
  else if n < 2048 then [192 + n / 64, 128 + n % 64]
  else if n < 65536 then [224 + n / 4096, 128 + n / 64 % 64, 128 + n % 64]
  else [240 + n / 262144, 128 + n / 4096 % 64, 128 + n / 64 % 64, 128 + n % 64]

/-- UTF-8 bytes of a string, as fed to `Sha256::input_str`. -/
def strBytes (s : String) : List Nat := (s.data.map utf8Bytes).flatten

def hexChars : List Char :=
  ['0', '1', '2', '3', '4', '5', '6', '7'] ++ ['8', '9', 'a', 'b', 'c', 'd', 'e', 'f']

def hexChar (n : Nat) : Char := hexChars.getD n '0'

/-- The 8 hex characters of one 32-bit word, most significant nibble first. -/
def wordHex (w : Nat) : List Char :=
  [hexChar (Nat.mod (Nat.shiftRight w 28) 16), hexChar (Nat.mod (Nat.shiftRight w 24) 16),
   hexChar (Nat.mod (Nat.shiftRight w 20) 16), hexChar (Nat.mod (Nat.shiftRight w 16) 16),
   hexChar (Nat.mod (Nat.shiftRight w 12) 16), hexChar (Nat.mod (Nat.shiftRight w 8) 16),
   hexChar (Nat.mod (Nat.shiftRight w 4) 16), hexChar (Nat.mod w 16)]

/-- Hex digest string of a SHA-256 state, as `result_str` of the `crypto` crate. -/
def digestHex (s : H8) : String :=
  ⟨wordHex s.a ++ wordHex s.b ++ wordHex s.c ++ wordHex s.d ++
   wordHex s.e ++ wordHex s.f ++ wordHex s.g ++ wordHex s.h⟩

/-- SHA-256 hex digest of a string: `Sha256::new(); input_str(s); result_str()`. -/
def sha256hex (s : String) : String := digestHex (sha256 (strBytes s))

/-! ## Decimal rendering, as Rust `Display` for integers -/

/-- Decimal digits of a natural number as a string (Rust `format!` of a `u64`). -/
def decimalString (n : Nat) : String := (Nat.toDigits 10 n).asString

/-- Decimal rendering of a signed integer (Rust `Display` for `i64`). -/
def intDecimal (i : Int) : String :=
  if i < 0 then "-" ++ decimalString i.natAbs else decimalString i.natAbs

/-! ## The data model: `Transaction`, `Block`, `Blockchain` (src/blockchain.rs) -/

/-- `Transaction` of src/blockchain.rs: the id is an opaque unique token,
generated by `Uuid::new_v4` in the constructor; identity for deduplication
is the id alone. -/
structure Transaction where
  id : String
  sender : String
  recipient : String
  amount : Int
deriving Repr, DecidableEq

/-- `Block` of src/blockchain.rs. -/
structure Block where
  index : Nat
  timestamp : Nat
  proof : Nat
  transactions : List Transaction
  previous_hash : String
deriving Repr, DecidableEq

/-! JSON serialization as `serde_json::to_string` renders the derived
`Serialize` of `Block` and `Transaction`: object keys in declaration order,
no spaces, strings escaped as serde_json does. -/

/-- serde_json escaping of one character. -/
def jsonEscapeChar (c : Char) : List Char :=
  if c = '"' then ['\\', '"']
  else if c = '\\' then ['\\', '\\']
  else if c.toNat < 32 then
    if c.toNat = 8 then ['\\', 'b']
    else if c.toNat = 9 then ['\\', 't']
    else if c.toNat = 10 then ['\\', 'n']
    else if c.toNat = 12 then ['\\', 'f']
    else if c.toNat = 13 then ['\\', 'r']
    else ['\\', 'u', '0', '0', hexChar (c.toNat / 16), hexChar (c.toNat % 16)]
  else [c]

/-- A JSON string literal. -/
def jsonString (s : String) : String :=
  "\"" ++ ⟨(s.data.map jsonEscapeChar).flatten⟩ ++ "\""

/-- serde_json rendering of a `Transaction`. -/
def txJson (t : Transaction) : String :=
  "\x7b\"id\":" ++ jsonString t.id ++ ",\"sender\":" ++ jsonString t.sender ++
  ",\"recipient\":" ++ jsonString t.recipient ++ ",\"amount\":" ++ intDecimal t.amount ++ "\x7d"

/-- serde_json rendering of a `Block`. -/
def blockJson (b : Block) : String :=
  "\x7b\"index\":" ++ decimalString b.index ++ ",\"timestamp\":" ++ decimalString b.timestamp ++
  ",\"proof\":" ++ decimalString b.proof ++ ",\"transactions\":[" ++
  String.intercalate "," (b.transactions.map txJson) ++ "],\"previous_hash\":" ++
  jsonString b.previous_hash ++ "\x7d"

/-- `Block::get_hash`: the SHA-256 hex digest of the block's serde_json string. -/
def Block.get_hash (b : Block) : String := sha256hex (blockJson b)

/-- `Block::get_genesis`: the fixed genesis sentinel. -/
def Block.get_genesis : Block := ⟨0, 0, 100, [], "1"⟩

/-- `Blockchain` of src/blockchain.rs: the pending-transaction pool and the
ordered list of committed blocks. -/
structure Blockchain where
  current_transactions : List Transaction
  blocks : List Block
deriving Repr, DecidableEq

/-- `Blockchain::new`: only the genesis block, empty pool. -/
def Blockchain.new : Blockchain := ⟨[], [Block.get_genesis]⟩

/-- `Blockchain::from_blocks`. -/
def Blockchain.from_blocks (blocks : List Block) : Blockchain := ⟨[], blocks⟩

/-- `Blockchain::len`: the number of blocks. -/
def Blockchain.len (bc : Blockchain) : Nat := bc.blocks.length

/-- `Blockchain::valid_proof`: does the hex digest of `"{last_proof}{proof}"`
start with four zero characters? -/
def valid_proof (last_proof proof : Nat) : Bool :=
  ((sha256hex (decimalString last_proof ++ decimalString proof)).data.take 4) == ['0', '0', '0', '0']

/-- `Blockchain::proof_of_work`'s search loop, totalised by fuel: try `proof`,
then `proof + 1`, and so on; `none` when the fuel runs out first.
Written with a bare `Nat.rec` so the kernel can evaluate it iteratively. -/
def powAux (last_proof : Nat) (fuel : Nat) : Nat → Option Nat :=
  Nat.rec (motive := fun _ => Nat → Option Nat)
    (fun _ => none)
    (fun _ ih proof => if valid_proof last_proof proof then some proof else ih (proof + 1))
    fuel

/-- `Blockchain::proof_of_work`: brute-force search upward from 0. -/
def proof_of_work (last_proof : Nat) (fuel : Nat) : Option Nat := powAux last_proof fuel 0

/-- `Blockchain::add_new_transaction`: reject when a transaction with the same
id is already pending or committed anywhere; otherwise push into the pool. -/
def Blockchain.add_new_transaction (bc : Blockchain) (t : Transaction) : Bool × Blockchain :=
  if bc.current_transactions.any (fun u => u.id == t.id) then (false, bc)
  else if bc.blocks.any (fun b => b.transactions.any (fun u => u.id == t.id)) then (false, bc)
  else (true, ⟨bc.current_transactions ++ [t], bc.blocks⟩)

/-- `Blockchain::create_new_block`: drain the pool into a new block and append
it.  `now` stands for the wall-clock time `get_time()` reads. -/
def Blockchain.create_new_block (bc : Blockchain) (proof : Nat) (previous_hash : String)
    (now : Nat) : Block × Blockchain :=
  let block : Block := ⟨bc.blocks.length, now, proof, bc.current_transactions, previous_hash⟩
  (block, ⟨[], bc.blocks ++ [block]⟩)

/-- `Vec::swap_remove(i)`: replace element i with the last element and pop. -/
def swapRemove (l : List Transaction) (i : Nat) : List Transaction :=
  match l.getLast? with
  | none => l
  | some last => (l.set i last).dropLast

/-- The inner purge loop of `Blockchain::add_new_block`: scan the pool with
index i, `swap_remove` every transaction whose id equals tid.  The fuel is the
scan budget; `pool.length - i` bounds the remaining iterations. -/
def purge : Nat → Nat → List Transaction → String → List Transaction
  | 0, _, pool, _ => pool
  | fuel + 1, i, pool, tid =>
    if h : i < pool.length then
      if (pool.get ⟨i, h⟩).id == tid then purge fuel i (swapRemove pool i) tid
      else purge fuel (i + 1) pool tid
    else pool

/-- `Blockchain::add_new_block`: compare the candidate's index with the chain
length; on the `Equal` branch check the hash link and the proof of work, purge
pending transactions whose id occurs in the candidate, and append.  `none`
models the `last_block().unwrap()` panic on an empty chain. -/
def Blockchain.add_new_block (bc : Blockchain) (block : Block) : Option (Bool × Blockchain) :=
  match compare block.index bc.blocks.length with
  | .lt => some (false, bc)
  | .eq =>
    match bc.blocks.getLast? with
    | none => none
    | some last =>
      if last.get_hash != block.previous_hash || !valid_proof last.proof block.proof then
        some (false, bc)
      else
        let pool := block.transactions.foldl
          (fun pool t => purge pool.length 0 pool t.id) bc.current_transactions
        some (true, ⟨pool, bc.blocks ++ [block]⟩)
  | .gt => some (false, bc)

/-- The adjacent-pair loop of `Blockchain::valid_chain`: the later block's
`previous_hash` must be the earlier block's digest, and the proof-of-work
relation must hold between their proofs. -/
def chainLinks : Block → List Block → Bool
  | _, [] => true
  | prev, b :: rest =>
    if prev.get_hash != b.previous_hash then false
    else if !valid_proof prev.proof b.proof then false
    else chainLinks b rest

/-- `Blockchain::valid_chain`: check the genesis block's proof, transactions
and previous_hash, then every adjacent pair.  `none` models the panic of the
unconditional `chain.blocks[0]` on an empty chain. -/
def Blockchain.valid_chain (chain : Blockchain) : Option Bool :=
  match chain.blocks with
  | [] => none
  | b0 :: rest =>
    some (if b0.proof != 100 || !b0.transactions.isEmpty || b0.previous_hash != "1" then false
          else chainLinks b0 rest)

/-! ## The node layer (src/node.rs) -/

/-- `PeerInfo` of src/node.rs; the resolved socket address is opaque here. -/
structure PeerInfo where
  id : String
  address : String
deriving Repr, DecidableEq

/-- `Request` of src/message.rs. -/
inductive Request where
  | Hello (sender : PeerInfo)
  | HowAreYou (sender : PeerInfo)
  | NewTransaction (sender : PeerInfo) (t : Transaction)
  | NewBlock (sender : PeerInfo) (b : Block)
  | NewPeer (sender : PeerInfo) (peer : PeerInfo)
deriving Repr, DecidableEq

/-- `Response` of src/message.rs. -/
inductive Response where
  | Ack (responder : PeerInfo)
  | MyBlocks (responder : PeerInfo) (blocks : List Block)
deriving Repr, DecidableEq

/-- The response `Node::serve_request` writes to the connection: `serve_request`
sets `response` to `Some` only for `Hello` and `HowAreYou` and writes it at the
end; the gossip requests leave `response = None`, so nothing is written. -/
def serve_request_response (my_info : PeerInfo) (blocks : List Block) : Request → Option Response
  | .Hello _ => some (.Ack my_info)
  | .HowAreYou _ => some (.MyBlocks my_info blocks)
  | .NewTransaction _ _ => none
  | .NewBlock _ _ => none
  | .NewPeer _ _ => none

/-- `Node::update_chain`: reject a chain no longer than ours, validate the
candidate wholesale, then re-admit every pending transaction that the new
chain does not contain.  `none` propagates the `valid_chain` panic. -/
def update_chain (bc : Blockchain) (new_blocks : List Block) : Option (Bool × Blockchain) :=
  if new_blocks.length ≤ bc.blocks.length then some (false, bc)
  else
    let new_chain := Blockchain.from_blocks new_blocks
    match new_chain.valid_chain with
    | none => none
    | some false => some (false, bc)
    | some true =>
      some (true, bc.current_transactions.foldl (fun nc t => (nc.add_new_transaction t).2) new_chain)

/-! ## Named predicates used by the specification statements -/

/-- A transaction id already known to the ledger: present in the pending pool
or in some committed block. -/
def idKnown (bc : Blockchain) (tid : String) : Prop :=
  (∃ u ∈ bc.current_transactions, u.id = tid) ∨
  (∃ b ∈ bc.blocks, ∃ u ∈ b.transactions, u.id = tid)

instance (bc : Blockchain) (tid : String) : Decidable (idKnown bc tid) := by
  unfold idKnown; infer_instance

/-- The hash/proof link between two adjacent blocks of a valid chain. -/
def linked (x y : Block) : Prop :=
  x.get_hash = y.previous_hash ∧ valid_proof x.proof y.proof = true

/-- All transaction ids committed in a list of blocks, in order. -/
def blockIds (l : List Block) : List String :=
  (l.map (fun b => b.transactions.map Transaction.id)).flatten

/-- All transaction ids of a ledger state: committed ones then pending ones. -/
def allIds (bc : Blockchain) : List String :=
  blockIds bc.blocks ++ bc.current_transactions.map Transaction.id

/-- The ledger invariant of the specification: no transaction id appears twice
across the pending pool and the committed blocks combined. -/
def Inv (bc : Blockchain) : Prop := (allIds bc).Nodup

instance (bc : Blockchain) : Decidable (Inv bc) := by
  unfold Inv; infer_instance

/-! ## Concrete states used by counterexamples and witnesses -/

/-- A peer identity for concrete scenarios. -/
def pi0 : PeerInfo := ⟨"p0", "127.0.0.1:4000"⟩

/-- A transaction for concrete scenarios. -/
def tx0 : Transaction := ⟨"t0", "a", "b", 1⟩

/-- A genesis-shaped block whose index and timestamp differ from the sentinel. -/
def fakeGenesis : Block := ⟨5, 7, 100, [], "1"⟩

/-- The valid successor of the genesis block with proof 35293. -/
def nextBlock1 : Block := ⟨1, 0, 35293, [], Block.get_genesis.get_hash⟩

/-- A transaction whose id will be duplicated across blocks. -/
def dupTx : Transaction := ⟨"x", "s", "r", 1⟩

/-- A committed block holding `dupTx`. -/
def blkB1 : Block := ⟨1, 0, 100, [dupTx], "1"⟩

/-- A block that validly extends `blkB1` yet repeats the committed id "x". -/
def blkB2 : Block := ⟨2, 0, 35293, [dupTx], blkB1.get_hash⟩

/-! ## Batched evaluation of `valid_proof` over many candidates at once

To settle the proof-of-work regression fixtures the kernel must evaluate
SHA-256 on tens of thousands of candidate proofs.  Evaluating the
string-level `valid_proof` once per candidate is far too slow for the
kernel, so the candidates are processed in SIMD fashion: one lane of 512
bits per candidate, all lanes packed into a single natural number, and
every SHA-256 round performed on all lanes at once by arithmetic on the
pack.  The pack layout is `assemble`, and the batched computation is
proved to agree lane by lane with the reference `sha256`/`valid_proof`
definitions, so the fixtures follow from a handful of pack evaluations. -/

/-- Pack lane values `f 0, f 1, ...` into one number, 512 bits per lane. -/
def assemble : Nat → (Nat → Nat) → Nat
  | 0, _ => 0
  | L + 1, f => 2 ^ 512 * assemble L (fun i => f (i + 1)) + f 0

/-- Least-significant-first decimal digit bytes of n (ASCII), fuel-driven. -/
def asciiRev : Nat → Nat → List Nat
  | 0, _ => []
  | fuel + 1, n => (48 + n % 10) :: (if n / 10 = 0 then [] else asciiRev fuel (n / 10))

/-- The ASCII bytes of the decimal rendering of n. -/
def asciiL (n : Nat) : List Nat := (asciiRev (n + 1) n).reverse

/-- A byte list as a big-endian number. -/
def bytesToNum (l : List Nat) : Nat := l.foldl (fun acc b => 256 * acc + b) 0

/-- The 512-bit SHA-256 block of a message of at most 55 bytes, as one
big-endian number: message, 0x80, zero padding, 64-bit bit length. -/
def blockNum (msg : List Nat) : Nat :=
  (bytesToNum msg * 256 + 128) * 2 ^ (8 * (63 - msg.length)) + 8 * msg.length

/-- The bytes hashed for a proof-of-work check: `"{a}{q}"` in ASCII. -/
def msgBytesPow (a q : Nat) : List Nat := asciiL a ++ asciiL q

/-- Value of the last d decimal digits of n as big-endian ASCII bytes, with
the digit count fixed by the first argument (leading zeros kept). -/
def decNumF (d : Nat) : Nat → Nat :=
  Nat.rec (motive := fun _ => Nat → Nat)
    (fun _ => 0)
    (fun _ ih n => ih (n / 10) * 256 + (48 + n % 10))
    d

/-- The all-lanes-one pack of n lanes. -/
def onesP (n : Nat) : Nat := (2 ^ (512 * n) - 1) / (2 ^ 512 - 1)

/-- Affine small sum: c terms `base + t * step` shifted by `stride * t` bits. -/
def affSum (stride base step : Nat) : Nat → Nat
  | 0 => 0
  | c + 1 => affSum stride base step c + (base + c * step) * 2 ^ (stride * c)

/-- The pack of `decNumF m i` over all i < 10^m, one `affSum` level per
decimal digit. -/
def sufP : Nat → Nat
  | 0 => 0
  | m + 1 =>
    affSum (512 * 10 ^ m) (48 * 256 ^ m * onesP (10 ^ m) + sufP m) (256 ^ m * onesP (10 ^ m)) 10

/-- Lanewise rotate-right by n of 32-bit values; `M` is the replicated
32-bit mask. -/
def rotrB (M n x : Nat) : Nat :=
  Nat.lor (Nat.land (Nat.shiftRight x n) M) (Nat.land (Nat.shiftLeft x (32 - n)) M)

def bigS0B (M x : Nat) : Nat := Nat.xor (rotrB M 2 x) (Nat.xor (rotrB M 13 x) (rotrB M 22 x))

def bigS1B (M x : Nat) : Nat := Nat.xor (rotrB M 6 x) (Nat.xor (rotrB M 11 x) (rotrB M 25 x))

def smallS0B (M x : Nat) : Nat :=
  Nat.xor (rotrB M 7 x) (Nat.xor (rotrB M 18 x) (Nat.land (Nat.shiftRight x 3) M))

def smallS1B (M x : Nat) : Nat :=
  Nat.xor (rotrB M 17 x) (Nat.xor (rotrB M 19 x) (Nat.land (Nat.shiftRight x 10) M))

def chB (M e f g : Nat) : Nat := Nat.xor (Nat.land e f) (Nat.land (Nat.xor e M) g)

def majB (a b c : Nat) : Nat := Nat.xor (Nat.land a b) (Nat.xor (Nat.land a c) (Nat.land b c))

/-- The batched message-schedule extension, mirroring `schedExt` with one
pack per schedule word. -/
def schedExtB (M : Nat) (rev : List Nat) : Nat → List Nat
  | 0 => rev.reverse
  | n + 1 =>
    let w := Nat.land
      (smallS1B M (rev.getD 1 0) + rev.getD 6 0 + smallS0B M (rev.getD 14 0) + rev.getD 15 0)
      M
    schedExtB M (w :: rev) n

/-- The batched SHA-256 rounds, mirroring `rounds` with one pack per state
word; `o` is the all-lanes-one pack, so `k * o` replicates the round
constant. -/
def roundsB (o M : Nat) : List (Nat × Nat) → H8 → H8
  | [], s => s
  | (k, w) :: rest, ⟨a, b, c, d, e, f, g, h⟩ =>
    let t1 := h + bigS1B M e + chB M e f g + k * o + w
    let t2 := bigS0B M a + majB a b c
    roundsB o M rest ⟨Nat.land (t1 + t2) M, a, b, c, Nat.land (d + t1) M, e, f, g⟩

/-- Batched check that every one of the `c * 10^m` candidates
`q0, ..., q0 + c * 10^m - 1` (all with exactly lq decimal digits, the low m
digits of q0 zero) FAILS the proof-of-work test against `a`: the input packs
are built arithmetically from the digit patterns of consecutive integers, one
SHA-256 compression is run over all lanes at once, and the first 16 digest
bits of every lane are tested to be nonzero in a single comparison. -/
def batchCheck (a lq m c q0 : Nat) : Bool :=
  let la := (asciiL a).length
  let len := la + lq
  let o := onesP (c * 10 ^ m)
  let M := 4294967295 * o
  let om := onesP (10 ^ m)
  let t0 := q0 / 10 ^ m % 10
  let hnum := decNumF (lq - (m + 1)) (q0 / 10 ^ (m + 1))
  let LP := affSum (512 * 10 ^ m) ((48 + t0) * 256 ^ m * om + sufP m) (256 ^ m * om) c
  let numA := bytesToNum (asciiL a)
  let C0 := ((numA * 256 ^ lq + hnum * 256 ^ (m + 1)) * 256 + 128) * 2 ^ (8 * (63 - len)) + 8 * len
  let C1 := 2 ^ (8 * (64 - len))
  let B := C0 * o + LP * C1
  let ws := (List.range 16).map (fun j => Nat.land (Nat.shiftRight B (32 * (15 - j))) M)
  let r := roundsB o M (K.zip (schedExtB M ws.reverse 48))
    ⟨1779033703 * o, 3144134277 * o, 1013904242 * o, 2773480762 * o,
     1359893119 * o, 2600822924 * o, 528734635 * o, 1541459225 * o⟩
  let outA := Nat.land (1779033703 * o + r.a) M
  let t := Nat.land (Nat.shiftRight outA 16) (65535 * o)
  Nat.land (t + 65535 * o) (65536 * o) == 65536 * o


/-- Least-significant-first decimal digit characters of n, fuel-driven,
mirroring `Nat.toDigitsCore`. -/
def digCharsRev : Nat → Nat → List Char
  | 0, _ => []
  | fuel + 1, n =>
    Nat.digitChar (n % 10) :: (if n / 10 = 0 then [] else digCharsRev fuel (n / 10))

/-- All lanes of f below 2^32. -/
def Lanes32 (L : Nat) (f : Nat → Nat) : Prop := ∀ i, i < L → f i < 2 ^ 32

/-- The message-schedule extension lifted to families of per-lane words. -/
def schedExtS (rev : List (Nat → Nat)) : Nat → List (Nat → Nat)
  | 0 => rev.reverse
  | n + 1 =>
    schedExtS ((fun i => Nat.mod (smallS1 (rev.getD 1 (fun _ => 0) i) + rev.getD 6 (fun _ => 0) i
      + smallS0 (rev.getD 14 (fun _ => 0) i) + rev.getD 15 (fun _ => 0) i) 4294967296) :: rev) n

/-! ## Theorems -/

theorem any_id_iff (l : List Transaction) (tid : String) :
    l.any (fun u => u.id == tid) = true ↔ ∃ u ∈ l, u.id = tid := by
  simp [List.any_eq_true]

theorem blocks_any_iff (blocks : List Block) (tid : String) :
    blocks.any (fun b => b.transactions.any (fun u => u.id == tid)) = true ↔
      tid ∈ blockIds blocks := by
  simp only [List.any_eq_true, beq_iff_eq, blockIds, List.mem_flatten, List.mem_map]
  constructor
  · rintro ⟨b, hb, u, hu, he⟩
    exact ⟨b.transactions.map Transaction.id, ⟨b, hb, rfl⟩, List.mem_map.mpr ⟨u, hu, he⟩⟩
  · rintro ⟨l, ⟨b, hb, rfl⟩, hm⟩
    obtain ⟨u, hu, he⟩ := List.mem_map.mp hm
    exact ⟨b, hb, u, hu, he⟩

/-- C5 (amended): `create_block(proof, previous_hash)` drains the whole pool
into one new block appended at the end; afterwards the pool is empty, the
chain is one block longer, and the new last block carries the given proof and
previous_hash, exactly the formerly pending transactions, the given wall-clock
time, and an index equal to the chain length at the time of the call. -/
theorem c5_create_block_spec :
    ∀ (bc : Blockchain) (proof : Nat) (ph : String) (now : Nat),
      ((bc.create_new_block proof ph now).2.current_transactions = []) ∧
      ((bc.create_new_block proof ph now).2.blocks
        = bc.blocks ++ [(bc.create_new_block proof ph now).1]) ∧
      ((bc.create_new_block proof ph now).1
        = ⟨bc.blocks.length, now, proof, bc.current_transactions, ph⟩) :=
  fun _ _ _ _ => ⟨rfl, rfl, rfl⟩

/-- C5 counterexample: the new block's index equals the chain length at the
time of the call, not one more than it: from the fresh chain of length 1 the
minted block has index 1, not 2. -/
theorem c5_counterexample :
    (Blockchain.new.create_new_block 7 "h" 123).1.index ≠ Blockchain.new.blocks.length + 1 := by
  decide

/-- C9 (amended): the request handler answers Hello with exactly one Ack and
HowAreYou with exactly one MyBlocks carrying the full block list, and writes
no response at all for NewTransaction, NewBlock and NewPeer. -/
theorem c9_serve_request_responses :
    ∀ (my : PeerInfo) (blocks : List Block) (p q : PeerInfo) (t : Transaction) (b : Block),
      serve_request_response my blocks (.Hello p) = some (.Ack my) ∧
      serve_request_response my blocks (.HowAreYou p) = some (.MyBlocks my blocks) ∧
      serve_request_response my blocks (.NewTransaction p t) = none ∧
      serve_request_response my blocks (.NewBlock p b) = none ∧
      serve_request_response my blocks (.NewPeer p q) = none :=
  fun _ _ _ _ _ _ => ⟨rfl, rfl, rfl, rfl, rfl⟩

/-- C9 counterexample: a NewTransaction request is answered with no response at
all, not with an Ack. -/
theorem c9_counterexample :
    serve_request_response pi0 [] (Request.NewTransaction pi0 tx0) = none ∧
    serve_request_response pi0 [] (Request.NewTransaction pi0 tx0) ≠ some (Response.Ack pi0) := by
  exact ⟨rfl, by decide⟩

/-- C10: `valid_chain` on a chain with zero blocks hits the unconditional
`chain.blocks[0]` access (modelled as `none`, the panic), while every call
reachable through `update_chain` is guarded by the length comparison, so
`update_chain` never panics. -/
theorem c10_valid_chain_panic_guard :
    (∀ pool : List Transaction, Blockchain.valid_chain ⟨pool, []⟩ = none) ∧
    (∀ (bc : Blockchain) (nb : List Block), update_chain bc nb ≠ none) := by
  refine ⟨fun _ => rfl, fun bc nb => ?_⟩
  unfold update_chain
  by_cases h : nb.length ≤ bc.blocks.length
  · simp [h]
  · cases nb with
    | nil => simp at h
    | cons b rest =>
      simp only [h, if_false]
      cases hv : (Blockchain.from_blocks (b :: rest)).valid_chain with
      | none => simp [Blockchain.from_blocks, Blockchain.valid_chain] at hv
      | some v => cases v <;> simp

theorem chainLinks_iff (prev : Block) (l : List Block) :
    chainLinks prev l = true ↔ List.Chain linked prev l := by
  induction l generalizing prev with
  | nil => simp [chainLinks]
  | cons b rest ih =>
    have e : chainLinks prev (b :: rest)
        = if prev.get_hash != b.previous_hash then false
          else if !valid_proof prev.proof b.proof then false else chainLinks b rest := rfl
    rw [e, List.chain_cons, ← ih b]
    by_cases h1 : prev.get_hash = b.previous_hash
    · by_cases h2 : valid_proof prev.proof b.proof = true
      · simp [linked, h1, h2]
      · simp [linked, h1, h2]
    · simp [linked, h1]

/-- C3 (amended): `valid_chain` holds exactly when the first block has proof
100, an empty transaction list and previous_hash "1" (its index and timestamp
are not checked), and every adjacent pair is linked by hash and proof of
work. -/
theorem c3_valid_chain_characterisation :
    ∀ (pool : List Transaction) (b0 : Block) (rest : List Block),
      Blockchain.valid_chain ⟨pool, b0 :: rest⟩ = some true ↔
        (b0.proof = 100 ∧ b0.transactions = [] ∧ b0.previous_hash = "1" ∧
          List.Chain linked b0 rest) := by
  intro pool b0 rest
  show some _ = some true ↔ _
  rw [Option.some_inj]
  by_cases h1 : b0.proof = 100
  · by_cases h2 : b0.transactions = []
    · by_cases h3 : b0.previous_hash = "1"
      · simp [h1, h2, h3, chainLinks_iff]
      · simp [h1, h2, h3]
    · simp [h1, h2]
  · simp [h1]

/-- C3 counterexample: a single-block chain whose first block has index 5 and
timestamp 7 (so it is not the genesis sentinel) is nevertheless accepted by
`valid_chain`, because the index and timestamp are never checked. -/
theorem c3_counterexample :
    Blockchain.valid_chain ⟨[], [fakeGenesis]⟩ = some true ∧
    fakeGenesis ≠ Block.get_genesis := by
  decide

/-- C6 (amended): a candidate whose index is strictly less than the chain
length is silently rejected as stale, leaving chain and pool unchanged; a
candidate with index equal to the chain length is the accept case, not a stale
one. -/
theorem c6_stale_block_rejected :
    ∀ (bc : Blockchain) (b : Block),
      b.index < bc.blocks.length → bc.add_new_block b = some (false, bc) := by
  intro bc b h
  unfold Blockchain.add_new_block
  rw [Nat.compare_eq_lt.mpr h]

theorem c6_stale_block_rejected_witness :
    Blockchain.new.add_new_block Block.get_genesis = some (false, Blockchain.new) :=
  c6_stale_block_rejected Blockchain.new Block.get_genesis (by decide)

/-- C6 counterexample: with the chain holding only genesis (length 1), the
candidate of index 1 = length with the correct previous hash and proof 35293
is accepted, so index equal to the current length is not rejected. -/
theorem c6_counterexample :
    Blockchain.add_new_block ⟨[], [Block.get_genesis]⟩ nextBlock1 =
      some (true, ⟨[], [Block.get_genesis, nextBlock1]⟩) := by
  decide!

/-- C7: `admit_transaction` deduplicates by id alone: it is a rejecting no-op
exactly when the id is already pending or committed, admitting appends to the
pool; a second transaction with the same id is always rejected; and two
transactions with different ids (whatever their contents) are both admitted
when neither id is known. -/
theorem c7_admit_transaction_dedup :
    (∀ (bc : Blockchain) (t : Transaction),
      idKnown bc t.id → bc.add_new_transaction t = (false, bc)) ∧
    (∀ (bc : Blockchain) (t : Transaction),
      ¬ idKnown bc t.id →
        bc.add_new_transaction t = (true, ⟨bc.current_transactions ++ [t], bc.blocks⟩)) ∧
    (∀ (bc : Blockchain) (t u : Transaction),
      u.id = t.id → ((bc.add_new_transaction t).2.add_new_transaction u).1 = false) ∧
    (∀ (bc : Blockchain) (t u : Transaction),
      t.id ≠ u.id → ¬ idKnown bc t.id → ¬ idKnown bc u.id →
        (bc.add_new_transaction t).1 = true ∧
        ((bc.add_new_transaction t).2.add_new_transaction u).1 = true) := by
  have known_iff : ∀ (bc : Blockchain) (tid : String),
      (bc.current_transactions.any (fun u => u.id == tid) ||
        bc.blocks.any (fun b => b.transactions.any (fun u => u.id == tid))) = true ↔
      idKnown bc tid := by
    intro bc tid
    simp only [Bool.or_eq_true, any_id_iff, idKnown, List.any_eq_true, beq_iff_eq]
  have step : ∀ (bc : Blockchain) (t : Transaction),
      bc.add_new_transaction t =
        if idKnown bc t.id then (false, bc)
        else (true, ⟨bc.current_transactions ++ [t], bc.blocks⟩) := by
    intro bc t
    unfold Blockchain.add_new_transaction
    by_cases h : idKnown bc t.id
    · rcases Bool.or_eq_true _ _ |>.mp ((known_iff bc t.id).mpr h) with h1 | h2
      · simp [h1, h]
      · by_cases h1 : bc.current_transactions.any (fun u => u.id == t.id) = true
        · simp [h1, h]
        · simp [h1, h2, h]
    · have := (known_iff bc t.id).not.mpr h
      rw [Bool.or_eq_true] at this
      push_neg at this
      obtain ⟨h1, h2⟩ := this
      simp only [Bool.not_eq_true] at h1 h2
      simp [h1, h2, h]
  refine ⟨?_, ?_, ?_, ?_⟩
  · intro bc t h; rw [step, if_pos h]
  · intro bc t h; rw [step, if_neg h]
  · intro bc t u he
    rw [step bc t]
    by_cases h : idKnown bc t.id
    · rw [if_pos h, step, if_pos (he ▸ h)]
    · rw [if_neg h, step, if_pos ?_]
      exact Or.inl ⟨t, List.mem_append_right _ (List.mem_singleton_self t), he.symm⟩
  · intro bc t u hne ht hu
    rw [step bc t, if_neg ht, step, if_neg ?_]
    · constructor
      · rfl
      · rfl
    · rintro (⟨v, hv, he⟩ | ⟨b, hb, v, hv, he⟩)
      · rcases List.mem_append.mp hv with hv | hv
        · exact hu (Or.inl ⟨v, hv, he⟩)
        · rw [List.mem_singleton.mp hv] at he
          exact hne (he ▸ rfl)
      · exact hu (Or.inr ⟨b, hb, v, hv, he⟩)

theorem beq_symm_str (x y : String) : (x == y) = (y == x) := by
  by_cases h : x = y
  · simp [h]
  · simp [h, Ne.symm h]

theorem purge_exit (fuel i : Nat) (pool : List Transaction) (tid : String)
    (h : pool.length ≤ i) : purge fuel i pool tid = pool := by
  cases fuel with
  | zero => rfl
  | succ fuel => exact dif_neg (Nat.not_lt.mpr h)

theorem purge_perm :
    ∀ (fuel : Nat) (B A : List Transaction) (tid : String), B.length ≤ fuel →
      List.Perm (purge fuel A.length (A ++ B) tid)
        (A ++ B.filter (fun u => !(u.id == tid))) := by
  intro fuel
  induction fuel with
  | zero =>
    intro B A tid h
    rw [List.length_eq_zero.mp (Nat.le_zero.mp h)]
    simp [purge]
  | succ fuel ih =>
    intro B A tid h
    cases B with
    | nil =>
      rw [purge_exit _ _ _ _ (by simp)]
      simp
    | cons b B2 =>
      have hlt : A.length < (A ++ b :: B2).length := by simp
      have hget : (A ++ b :: B2).get ⟨A.length, hlt⟩ = b := by
        rw [List.get_eq_getElem, List.getElem_append_right (Nat.le_refl _)]
        simp
      show List.Perm (purge (fuel + 1) A.length (A ++ b :: B2) tid) _
      rw [show purge (fuel + 1) A.length (A ++ b :: B2) tid
          = if h : A.length < (A ++ b :: B2).length then
              if ((A ++ b :: B2).get ⟨A.length, h⟩).id == tid then
                purge fuel A.length (swapRemove (A ++ b :: B2) A.length) tid
              else purge fuel (A.length + 1) (A ++ b :: B2) tid
            else (A ++ b :: B2) from rfl,
        dif_pos hlt, hget]
      by_cases hm : (b.id == tid) = true
      · rw [if_pos hm]
        cases B2 with
        | nil =>
          have hsw : swapRemove (A ++ [b]) A.length = A := by
            unfold swapRemove
            rw [List.getLast?_append]
            simp
          rw [hsw, purge_exit _ _ _ _ (Nat.le_refl _)]
          simp [List.filter_cons, hm]
        | cons c B3 =>
          have hgl : ∃ gl, (c :: B3).getLast? = some gl := by
            cases hx : (c :: B3).getLast? with
            | none => exact absurd (List.getLast?_eq_none_iff.mp hx) (by simp)
            | some gl => exact ⟨gl, rfl⟩
          obtain ⟨gl, hgl⟩ := hgl
          have hglv : gl = (c :: B3).getLast (by simp) := by
            rw [List.getLast?_eq_getLast _ (by simp)] at hgl
            exact (Option.some_inj.mp hgl).symm
          have hsw : swapRemove (A ++ b :: c :: B3) A.length
              = A ++ gl :: (c :: B3).dropLast := by
            unfold swapRemove
            rw [List.getLast?_append]
            have : (b :: c :: B3).getLast? = some gl := by
              rw [List.getLast?_cons_cons]
              exact hgl
            rw [this]
            show ((A ++ b :: c :: B3).set A.length gl).dropLast = _
            rw [List.set_append_right _ _ (Nat.le_refl _), Nat.sub_self]
            show (A ++ gl :: c :: B3).dropLast = _
            rw [List.dropLast_append_cons]
            rfl
          rw [hsw]
          have hfuel : (gl :: (c :: B3).dropLast).length ≤ fuel := by
            simp only [List.length_cons, List.length_dropLast_cons] at h ⊢
            omega
          have hperm := ih (gl :: (c :: B3).dropLast) A tid hfuel
          refine hperm.trans (List.Perm.append_left A ?_)
          have hBperm : List.Perm (gl :: (c :: B3).dropLast) (c :: B3) := by
            have h1 : List.Perm (gl :: (c :: B3).dropLast) ((c :: B3).dropLast ++ [gl]) :=
              (List.perm_append_singleton _ _).symm
            have h2 : (c :: B3).dropLast ++ [gl] = c :: B3 := by
              rw [hglv]; exact List.dropLast_concat_getLast _
            refine h1.trans ?_
            rw [h2]
          have h3 : (b :: c :: B3).filter (fun u => !(u.id == tid))
              = (c :: B3).filter (fun u => !(u.id == tid)) :=
            List.filter_cons_of_neg (by simp [hm])
          rw [h3]
          exact hBperm.filter _
      · rw [if_neg hm]
        have e1 : A.length + 1 = (A ++ [b]).length := by simp
        have e2 : A ++ b :: B2 = (A ++ [b]) ++ B2 := by simp
        rw [e1, e2]
        refine (ih B2 (A ++ [b]) tid (by simpa using Nat.le_of_succ_le_succ h)).trans ?_
        have h4 : (b :: B2).filter (fun u => !(u.id == tid))
            = b :: B2.filter (fun u => !(u.id == tid)) :=
          List.filter_cons_of_pos (by simp [hm])
        rw [List.append_assoc, h4]
        exact List.Perm.refl _

theorem foldPurge_perm :
    ∀ (ts : List Transaction) (pool : List Transaction),
      List.Perm (ts.foldl (fun pool t => purge pool.length 0 pool t.id) pool)
        (pool.filter (fun u => !(ts.any (fun s => s.id == u.id)))) := by
  intro ts
  induction ts with
  | nil => intro pool; simp
  | cons s rest ih =>
    intro pool
    rw [List.foldl_cons]
    have h1 : List.Perm (purge pool.length 0 pool s.id)
        (pool.filter (fun u => !(u.id == s.id))) := by
      have := purge_perm pool.length pool [] s.id (Nat.le_refl _)
      simpa using this
    refine (ih _).trans ?_
    refine ((h1.filter _).trans ?_)
    rw [List.filter_filter]
    have he : List.filter
          (fun u => (!rest.any fun s => s.id == u.id) && !(u.id == s.id)) pool
        = List.filter (fun u => !(s :: rest).any fun v => v.id == u.id) pool := by
      refine List.filter_congr ?_
      intro u _
      rw [List.any_cons, Bool.not_or, beq_symm_str u.id s.id]
      exact Bool.and_comm _ _
    rw [he]

theorem add_new_block_cases :
    ∀ (pool : List Transaction) (pre : List Block) (last b : Block),
      ∃ acc bc',
        Blockchain.add_new_block ⟨pool, pre ++ [last]⟩ b = some (acc, bc') ∧
        (acc = true ↔ (b.index = (pre ++ [last]).length ∧
          b.previous_hash = last.get_hash ∧ valid_proof last.proof b.proof = true)) ∧
        (acc = true → bc'.blocks = (pre ++ [last]) ++ [b] ∧
          List.Perm bc'.current_transactions
            (pool.filter (fun t => !(b.transactions.any (fun s => s.id == t.id))))) ∧
        (acc = false → bc' = ⟨pool, pre ++ [last]⟩) := by
  intro pool pre last b
  have hlast : (pre ++ [last]).getLast? = some last := by simp
  rcases Nat.lt_trichotomy b.index (pre ++ [last]).length with hlt | heq | hgt
  · have heval : Blockchain.add_new_block ⟨pool, pre ++ [last]⟩ b
        = some (false, ⟨pool, pre ++ [last]⟩) := by
      unfold Blockchain.add_new_block
      rw [Nat.compare_eq_lt.mpr hlt]
    refine ⟨false, _, heval, ?_, ?_, ?_⟩
    · refine iff_of_false (fun h => Bool.noConfusion h) ?_
      rintro ⟨h1, -, -⟩
      exact absurd (h1 ▸ hlt) (Nat.lt_irrefl _)
    · intro h; exact Bool.noConfusion h
    · intro _; rfl
  · have hred : Blockchain.add_new_block ⟨pool, pre ++ [last]⟩ b
        = if (last.get_hash != b.previous_hash || !valid_proof last.proof b.proof) = true
          then some (false, ⟨pool, pre ++ [last]⟩)
          else some (true, ⟨b.transactions.foldl
            (fun pool t => purge pool.length 0 pool t.id) pool, (pre ++ [last]) ++ [b]⟩) := by
      unfold Blockchain.add_new_block
      rw [Nat.compare_eq_eq.mpr heq, hlast]
    by_cases hc : (last.get_hash != b.previous_hash || !valid_proof last.proof b.proof) = true
    · have heval : Blockchain.add_new_block ⟨pool, pre ++ [last]⟩ b
          = some (false, ⟨pool, pre ++ [last]⟩) := by rw [hred, if_pos hc]
      refine ⟨false, _, heval, ?_, ?_, ?_⟩
      · refine iff_of_false (fun h => Bool.noConfusion h) ?_
        rintro ⟨-, h2, h3⟩
        rcases Bool.or_eq_true _ _ |>.mp hc with hx | hx
        · exact bne_iff_ne.mp hx h2.symm
        · rw [h3] at hx; cases hx
      · intro h; exact Bool.noConfusion h
      · intro _; rfl
    · have heval : Blockchain.add_new_block ⟨pool, pre ++ [last]⟩ b
          = some (true, ⟨b.transactions.foldl
              (fun pool t => purge pool.length 0 pool t.id) pool, (pre ++ [last]) ++ [b]⟩) := by
        rw [hred, if_neg hc]
      rw [Bool.or_eq_true, not_or] at hc
      obtain ⟨h2, h3⟩ := hc
      have h2v : last.get_hash = b.previous_hash := by
        by_cases hx : last.get_hash = b.previous_hash
        · exact hx
        · exact absurd (bne_iff_ne.mpr hx) h2
      have h3v : valid_proof last.proof b.proof = true := by
        revert h3
        cases valid_proof last.proof b.proof <;> simp
      refine ⟨true, _, heval, iff_of_true rfl ⟨heq, h2v.symm, h3v⟩, fun _ => ⟨rfl, ?_⟩, ?_⟩
      · exact foldPurge_perm b.transactions pool
      · intro h; exact Bool.noConfusion h
  · have heval : Blockchain.add_new_block ⟨pool, pre ++ [last]⟩ b
        = some (false, ⟨pool, pre ++ [last]⟩) := by
      unfold Blockchain.add_new_block
      rw [Nat.compare_eq_gt.mpr hgt]
    refine ⟨false, _, heval, ?_, ?_, ?_⟩
    · refine iff_of_false (fun h => Bool.noConfusion h) ?_
      rintro ⟨h1, -, -⟩
      exact absurd (h1 ▸ hgt) (Nat.lt_irrefl _)
    · intro h; exact Bool.noConfusion h
    · intro _; rfl

theorem mem_blockIds_iff (l : List Block) (tid : String) :
    tid ∈ blockIds l ↔ ∃ b ∈ l, ∃ u ∈ b.transactions, u.id = tid := by
  rw [← blocks_any_iff]
  simp [List.any_eq_true]

theorem idKnown_iff_mem (bc : Blockchain) (tid : String) :
    idKnown bc tid ↔ tid ∈ allIds bc := by
  unfold idKnown allIds
  rw [List.mem_append, mem_blockIds_iff, List.mem_map, or_comm]

theorem admit_step (bc : Blockchain) (t : Transaction) :
    bc.add_new_transaction t =
      if idKnown bc t.id then (false, bc)
      else (true, ⟨bc.current_transactions ++ [t], bc.blocks⟩) := by
  have known_iff :
      (bc.current_transactions.any (fun u => u.id == t.id) ||
        bc.blocks.any (fun b => b.transactions.any (fun u => u.id == t.id))) = true ↔
      idKnown bc t.id := by
    simp only [Bool.or_eq_true, any_id_iff, idKnown, List.any_eq_true, beq_iff_eq]
  unfold Blockchain.add_new_transaction
  by_cases h : idKnown bc t.id
  · rcases Bool.or_eq_true _ _ |>.mp (known_iff.mpr h) with h1 | h2
    · simp [h1, h]
    · by_cases h1 : bc.current_transactions.any (fun u => u.id == t.id) = true
      · simp [h1, h]
      · simp [h1, h2, h]
  · have := known_iff.not.mpr h
    rw [Bool.or_eq_true] at this
    push_neg at this
    obtain ⟨h1, h2⟩ := this
    simp only [Bool.not_eq_true] at h1 h2
    simp [h1, h2, h]

theorem foldAdmit :
    ∀ (ts p : List Transaction) (nb : List Block),
      (ts.map Transaction.id).Nodup →
      (∀ t ∈ ts, ∀ u ∈ p, u.id ≠ t.id) →
      ts.foldl (fun nc t => (nc.add_new_transaction t).2) (⟨p, nb⟩ : Blockchain) =
        (⟨p ++ ts.filter
          (fun t => !(nb.any (fun b => b.transactions.any (fun u => u.id == t.id)))), nb⟩
          : Blockchain) := by
  intro ts
  induction ts with
  | nil => intro p nb _ _; simp
  | cons t rest ih =>
    intro p nb hnd hdisj
    obtain ⟨hni, hnd'⟩ :=
      (by simpa using hnd :
        (∀ x ∈ rest, ¬ x.id = t.id) ∧ (rest.map Transaction.id).Nodup)
    have hpool : ¬ ∃ u ∈ p, u.id = t.id := by
      rintro ⟨u, hu, he⟩
      exact hdisj t (List.mem_cons_self _ _) u hu he
    rw [List.foldl_cons]
    by_cases hblk : nb.any (fun b => b.transactions.any (fun u => u.id == t.id)) = true
    · have hknown : idKnown ⟨p, nb⟩ t.id := by
        right
        simpa [List.any_eq_true] using hblk
      have hstep : (Blockchain.add_new_transaction ⟨p, nb⟩ t).2 = ⟨p, nb⟩ := by
        rw [admit_step, if_pos hknown]
      rw [hstep, ih p nb hnd' (fun a ha u hu => hdisj a (List.mem_cons_of_mem _ ha) u hu)]
      have hf : (t :: rest).filter
            (fun t => !(nb.any (fun b => b.transactions.any (fun u => u.id == t.id))))
          = rest.filter
            (fun t => !(nb.any (fun b => b.transactions.any (fun u => u.id == t.id)))) :=
        List.filter_cons_of_neg (by simp [hblk])
      rw [hf]
    · have hknown : ¬ idKnown ⟨p, nb⟩ t.id := by
        rintro (h | h)
        · exact hpool h
        · exact hblk (by simpa [List.any_eq_true] using h)
      have hstep : (Blockchain.add_new_transaction ⟨p, nb⟩ t).2 = ⟨p ++ [t], nb⟩ := by
        rw [admit_step, if_neg hknown]
      rw [hstep, ih (p ++ [t]) nb hnd' ?_]
      · have hf : (t :: rest).filter
              (fun t => !(nb.any (fun b => b.transactions.any (fun u => u.id == t.id))))
            = t :: rest.filter
              (fun t => !(nb.any (fun b => b.transactions.any (fun u => u.id == t.id)))) :=
          List.filter_cons_of_pos (by simp [hblk])
        rw [hf, List.append_assoc]
        rfl
      · intro t' ht' u hu
        rcases List.mem_append.mp hu with hu | hu
        · exact hdisj t' (List.mem_cons_of_mem _ ht') u hu
        · rw [List.mem_singleton.mp hu]
          intro he
          exact hni t' ht' he.symm

/-- C2: `adopt(new_blocks)` rejects (and changes nothing) when the candidate
is no longer than the chain or fails whole-chain validation; otherwise it
replaces the chain wholesale and keeps exactly the pending transactions whose
id does not occur anywhere in the new chain. -/
theorem c2_adopt_spec :
    ∀ (bc : Blockchain) (nb : List Block),
      (bc.current_transactions.map Transaction.id).Nodup →
      (nb.length ≤ bc.blocks.length → update_chain bc nb = some (false, bc)) ∧
      (bc.blocks.length < nb.length →
        ((Blockchain.from_blocks nb).valid_chain = some false →
          update_chain bc nb = some (false, bc)) ∧
        ((Blockchain.from_blocks nb).valid_chain = some true →
          update_chain bc nb = some (true,
            ⟨bc.current_transactions.filter
              (fun t => !(nb.any (fun b => b.transactions.any (fun u => u.id == t.id)))), nb⟩))) := by
  intro bc nb hnd
  constructor
  · intro hle
    unfold update_chain
    rw [if_pos hle]
  · intro hlt
    constructor
    · intro hv
      unfold update_chain
      rw [if_neg (Nat.not_le.mpr hlt)]
      simp only [hv]
    · intro hv
      unfold update_chain
      rw [if_neg (Nat.not_le.mpr hlt)]
      simp only [hv]
      rw [show Blockchain.from_blocks nb = (⟨[], nb⟩ : Blockchain) from rfl,
        foldAdmit bc.current_transactions [] nb hnd (by intro t ht u hu; cases hu)]
      rfl

theorem c2_adopt_spec_witness :
    (([] : List Block).length ≤ Blockchain.new.blocks.length →
      update_chain Blockchain.new [] = some (false, Blockchain.new)) ∧
    (Blockchain.new.blocks.length < ([] : List Block).length →
      ((Blockchain.from_blocks []).valid_chain = some false →
        update_chain Blockchain.new [] = some (false, Blockchain.new)) ∧
      ((Blockchain.from_blocks []).valid_chain = some true →
        update_chain Blockchain.new [] = some (true,
          ⟨Blockchain.new.current_transactions.filter
            (fun t => !(([] : List Block).any
              (fun b => b.transactions.any (fun u => u.id == t.id)))), []⟩))) :=
  c2_adopt_spec Blockchain.new [] (by decide)

/-- C1: `append_block(candidate)` succeeds exactly when the candidate's index
equals the chain length, its previous_hash is the digest of the last block,
and the proof-of-work relation holds; on acceptance the candidate is appended
at the end and exactly the pending transactions whose id occurs in the
candidate are removed from the pool (the others remain, reordered by
`swap_remove`); on rejection nothing changes. -/
theorem c1_append_block_spec :
    ∀ (pool : List Transaction) (pre : List Block) (last b : Block),
      ∃ acc bc',
        Blockchain.add_new_block ⟨pool, pre ++ [last]⟩ b = some (acc, bc') ∧
        (acc = true ↔ (b.index = (pre ++ [last]).length ∧
          b.previous_hash = last.get_hash ∧ valid_proof last.proof b.proof = true)) ∧
        (acc = true → bc'.blocks = (pre ++ [last]) ++ [b] ∧
          List.Perm bc'.current_transactions
            (pool.filter (fun t => !(b.transactions.any (fun s => s.id == t.id))))) ∧
        (acc = false → bc' = ⟨pool, pre ++ [last]⟩) :=
  add_new_block_cases

theorem blockIds_concat (l : List Block) (b : Block) :
    blockIds (l ++ [b]) = blockIds l ++ b.transactions.map Transaction.id := by
  unfold blockIds
  rw [List.map_append, List.flatten_append]
  simp

/-- C4 (amended): `admit_transaction` and `create_block` preserve the
no-duplicate-id invariant unconditionally; `append_block` preserves it
provided the candidate's own transaction ids are distinct and disjoint from
the already committed ones; `adopt` preserves it provided the ids committed in
the adopted chain are distinct.  Without those side conditions the network can
break the invariant (see the counterexample). -/
theorem c4_invariant_preservation :
    (∀ (bc : Blockchain) (t : Transaction), Inv bc → Inv (bc.add_new_transaction t).2) ∧
    (∀ (bc : Blockchain) (proof : Nat) (ph : String) (now : Nat),
      Inv bc → Inv (bc.create_new_block proof ph now).2) ∧
    (∀ (bc : Blockchain) (b : Block) (acc : Bool) (bc' : Blockchain),
      Inv bc → (b.transactions.map Transaction.id).Nodup →
      (∀ u ∈ b.transactions, u.id ∉ blockIds bc.blocks) →
      bc.add_new_block b = some (acc, bc') → Inv bc') ∧
    (∀ (bc : Blockchain) (nb : List Block) (acc : Bool) (bc' : Blockchain),
      Inv bc → (blockIds nb).Nodup →
      update_chain bc nb = some (acc, bc') → Inv bc') := by
  refine ⟨?_, ?_, ?_, ?_⟩
  · -- admit_transaction
    intro bc t hInv
    rw [admit_step]
    by_cases h : idKnown bc t.id
    · rw [if_pos h]; exact hInv
    · rw [if_neg h]
      show (blockIds bc.blocks ++ (bc.current_transactions ++ [t]).map Transaction.id).Nodup
      rw [List.map_append]
      have hp : List.Perm
          (blockIds bc.blocks ++ (bc.current_transactions.map Transaction.id ++ [t.id]))
          (t.id :: (blockIds bc.blocks ++ bc.current_transactions.map Transaction.id)) := by
        rw [← List.append_assoc]
        exact List.perm_append_singleton _ _
      refine hp.nodup_iff.mpr (List.nodup_cons.mpr ⟨?_, hInv⟩)
      exact fun hm => h ((idKnown_iff_mem bc t.id).mpr hm)
  · -- create_new_block
    intro bc proof ph now hInv
    show (blockIds (bc.blocks ++ [_]) ++ ([] : List Transaction).map Transaction.id).Nodup
    rw [blockIds_concat, List.map_nil, List.append_nil]
    exact hInv
  · -- add_new_block
    intro bc b acc bc' hInv hbnd hbdisj heq
    rcases List.eq_nil_or_concat bc.blocks with hbl | ⟨pre, last, hbl⟩
    · rcases Nat.lt_trichotomy b.index bc.blocks.length with h | h | h
      · rw [hbl] at h; exact absurd h (by simp)
      · have : Blockchain.add_new_block bc b = none := by
          unfold Blockchain.add_new_block
          rw [Nat.compare_eq_eq.mpr h, hbl]
          rfl
        rw [this] at heq
        exact Option.noConfusion heq
      · have : Blockchain.add_new_block bc b = some (false, bc) := by
          unfold Blockchain.add_new_block
          rw [Nat.compare_eq_gt.mpr h]
        rw [this] at heq
        obtain ⟨-, hb2⟩ := Prod.mk.injEq _ _ _ _ |>.mp (Option.some_inj.mp heq)
        exact hb2 ▸ hInv
    · rw [List.concat_eq_append] at hbl
      have hbc : bc = (⟨bc.current_transactions, pre ++ [last]⟩ : Blockchain) := by
        rw [← hbl]
      obtain ⟨acc2, bc2, heval, hiff, haccT, haccF⟩ :=
        add_new_block_cases bc.current_transactions pre last b
      rw [← hbc] at heval
      obtain ⟨ha, hb2⟩ := Prod.mk.injEq _ _ _ _ |>.mp (Option.some_inj.mp (heval.symm.trans heq))
      cases acc2 with
      | false =>
        have := haccF rfl
        rw [← hb2, this, ← hbc]
        exact hInv
      | true =>
        obtain ⟨hblocks, hperm⟩ := haccT rfl
        rw [← hbl] at hblocks
        rw [← hb2]
        show (blockIds bc2.blocks ++ bc2.current_transactions.map Transaction.id).Nodup
        rw [hblocks, blockIds_concat]
        have hpm : List.Perm (bc2.current_transactions.map Transaction.id)
            ((bc.current_transactions.filter
              (fun t => !(b.transactions.any (fun s => s.id == t.id)))).map Transaction.id) :=
          hperm.map _
        refine ((List.Perm.append_left _ hpm).nodup_iff).mpr ?_
        obtain ⟨hnbi, hnp, hdisjBP⟩ := List.nodup_append.mp hInv
        have memF : ∀ a, a ∈ (bc.current_transactions.filter
            (fun t => !(b.transactions.any (fun s => s.id == t.id)))).map Transaction.id →
            a ∈ bc.current_transactions.map Transaction.id ∧
            ¬ ∃ s ∈ b.transactions, s.id = a := by
          intro a ha
          obtain ⟨t, htf, hta⟩ := List.mem_map.mp ha
          obtain ⟨htp, hpred⟩ := List.mem_filter.mp htf
          refine ⟨hta ▸ List.mem_map_of_mem _ htp, ?_⟩
          rintro ⟨u, hu, hue⟩
          have : b.transactions.any (fun s => s.id == t.id) = true :=
            List.any_eq_true.mpr ⟨u, hu, by simp [hue, hta]⟩
          rw [this] at hpred
          exact Bool.noConfusion hpred
        rw [List.nodup_append, List.nodup_append]
        refine ⟨⟨hnbi, hbnd, ?_⟩, ?_, ?_⟩
        · intro a hab hat
          obtain ⟨u, hu, hue⟩ := List.mem_map.mp hat
          exact hbdisj u hu (hue ▸ hab)
        · exact List.Nodup.sublist (List.Sublist.map _ (List.filter_sublist _)) hnp
        · rw [List.disjoint_append_left]
          constructor
          · intro a hab haf
            exact hdisjBP hab (memF a haf).1
          · intro a hat haf
            obtain ⟨u, hu, hue⟩ := List.mem_map.mp hat
            exact (memF a haf).2 ⟨u, hu, hue⟩
  · -- update_chain
    intro bc nb acc bc' hInv hnbnd heq
    unfold update_chain at heq
    by_cases hle : nb.length ≤ bc.blocks.length
    · rw [if_pos hle] at heq
      obtain ⟨-, hb2⟩ := Prod.mk.injEq _ _ _ _ |>.mp (Option.some_inj.mp heq)
      exact hb2 ▸ hInv
    · rw [if_neg hle] at heq
      cases hv : (Blockchain.from_blocks nb).valid_chain with
      | none =>
        simp only [hv] at heq
        exact Option.noConfusion heq
      | some v =>
        cases v with
        | false =>
          simp only [hv] at heq
          obtain ⟨-, hb2⟩ := Prod.mk.injEq _ _ _ _ |>.mp (Option.some_inj.mp heq)
          exact hb2 ▸ hInv
        | true =>
          simp only [hv] at heq
          have hndp : (bc.current_transactions.map Transaction.id).Nodup :=
            (List.nodup_append.mp hInv).2.1
          rw [show Blockchain.from_blocks nb = (⟨[], nb⟩ : Blockchain) from rfl,
            foldAdmit bc.current_transactions [] nb hndp (by intro t ht u hu; cases hu)] at heq
          obtain ⟨-, hb2⟩ := Prod.mk.injEq _ _ _ _ |>.mp (Option.some_inj.mp heq)
          rw [← hb2]
          show (blockIds nb ++ (List.filter _ bc.current_transactions).map Transaction.id).Nodup
          rw [List.nodup_append]
          refine ⟨hnbnd, ?_, ?_⟩
          · exact List.Nodup.sublist (List.Sublist.map _ (List.filter_sublist _)) hndp
          · intro a hab hat
            obtain ⟨t, htf, hta⟩ := List.mem_map.mp hat
            obtain ⟨-, hpred⟩ := List.mem_filter.mp htf
            have : nb.any (fun b => b.transactions.any (fun u => u.id == t.id)) = true :=
              (blocks_any_iff nb t.id).mpr (hta ▸ hab)
            rw [this] at hpred
            exact Bool.noConfusion hpred

/-- C4 counterexample: starting from invariant-respecting states, both
`append_block` and `adopt` can commit a transaction id twice: a valid
successor block repeating an already committed id is accepted, and a longer
valid chain whose two blocks share one id is adopted. -/
theorem c4_counterexample :
    (Inv ⟨[], [Block.get_genesis, blkB1]⟩ ∧
      Blockchain.add_new_block ⟨[], [Block.get_genesis, blkB1]⟩ blkB2 =
        some (true, ⟨[], [Block.get_genesis, blkB1, blkB2]⟩) ∧
      ¬ Inv ⟨[], [Block.get_genesis, blkB1, blkB2]⟩) := by
  decide!

theorem lt_pow10_succ (n : Nat) : n < 10 ^ (n + 1) :=
  lt_of_lt_of_le (Nat.lt_pow_self (by norm_num) n)
    (Nat.pow_le_pow_right (by norm_num) (Nat.le_succ n))

theorem asciiRev_fuel : ∀ f g n, n < 10 ^ (f + 1) → n < 10 ^ (g + 1) →
    asciiRev (f + 1) n = asciiRev (g + 1) n := by
  intro f
  induction f with
  | zero =>
    intro g n hf hg
    have h10 : n / 10 = 0 := Nat.div_eq_of_lt (by simpa using hf)
    cases g with
    | zero => rfl
    | succ g => simp [asciiRev, h10]
  | succ f ih =>
    intro g n hf hg
    by_cases h10 : n / 10 = 0
    · cases g with
      | zero => simp [asciiRev, h10]
      | succ g => simp [asciiRev, h10]
    · have hn10 : 10 ≤ n := by
        rcases Nat.lt_or_ge n 10 with h | h
        · exact absurd (Nat.div_eq_of_lt h) h10
        · exact h
      cases g with
      | zero =>
        exfalso
        have : n < 10 := by simpa using hg
        omega
      | succ g =>
        have hf' : n / 10 < 10 ^ (f + 1) := by
          refine (Nat.div_lt_iff_lt_mul (by norm_num : (0:Nat) < 10)).mpr ?_
          calc n < 10 ^ (f + 1 + 1) := hf
            _ = 10 ^ (f + 1) * 10 := by ring
        have hg' : n / 10 < 10 ^ (g + 1) := by
          refine (Nat.div_lt_iff_lt_mul (by norm_num : (0:Nat) < 10)).mpr ?_
          calc n < 10 ^ (g + 1 + 1) := hg
            _ = 10 ^ (g + 1) * 10 := by ring
        simp only [asciiRev, h10, if_false]
        exact congrArg _ (ih g (n / 10) hf' hg')

theorem asciiL_lt10 (q : Nat) (h : q < 10) : asciiL q = [48 + q] := by
  have h10 : q / 10 = 0 := Nat.div_eq_of_lt h
  have hm : q % 10 = q := Nat.mod_eq_of_lt h
  simp [asciiL, asciiRev, h10, hm]

theorem asciiL_step (q : Nat) (h : 10 ≤ q) :
    asciiL q = asciiL (q / 10) ++ [48 + q % 10] := by
  have h10 : ¬ q / 10 = 0 := Nat.pos_iff_ne_zero.mp (Nat.div_pos h (by norm_num))
  have hq : q - 1 + 1 = q := by omega
  have b1 : q / 10 < 10 ^ (q - 1 + 1) := by
    rw [hq]
    exact lt_of_le_of_lt (Nat.div_le_self q 10) (Nat.lt_pow_self (by norm_num) q)
  have h2 : asciiRev (q - 1 + 1) (q / 10) = asciiRev (q / 10 + 1) (q / 10) :=
    asciiRev_fuel (q - 1) (q / 10) (q / 10) b1 (lt_pow10_succ (q / 10))
  rw [hq] at h2
  have h1 : asciiRev (q + 1) q = (48 + q % 10) :: asciiRev q (q / 10) := by
    simp [asciiRev, h10]
  rw [asciiL, h1, h2, List.reverse_cons]
  rfl

theorem bytesToNum_foldl (ys : List Nat) : ∀ a : Nat,
    ys.foldl (fun acc b => 256 * acc + b) a = a * 256 ^ ys.length + bytesToNum ys := by
  induction ys with
  | nil => intro a; simp [bytesToNum]
  | cons b ys ih =>
    intro a
    show ys.foldl _ (256 * a + b) = _
    rw [ih (256 * a + b)]
    have hb : bytesToNum (b :: ys) = b * 256 ^ ys.length + bytesToNum ys := by
      show ys.foldl _ (256 * 0 + b) = _
      rw [ih (256 * 0 + b)]
      ring_nf
    rw [hb]
    simp [List.length_cons]
    ring

theorem bytesToNum_append (xs ys : List Nat) :
    bytesToNum (xs ++ ys) = bytesToNum xs * 256 ^ ys.length + bytesToNum ys := by
  show (xs ++ ys).foldl _ 0 = _
  rw [List.foldl_append, bytesToNum_foldl]
  rfl

theorem bytesToNum_lt (l : List Nat) (h : ∀ b ∈ l, b < 256) :
    bytesToNum l < 256 ^ l.length := by
  induction l with
  | nil => simp [bytesToNum]
  | cons b ys ih =>
    have hb : bytesToNum (b :: ys) = b * 256 ^ ys.length + bytesToNum ys := by
      show ys.foldl _ (256 * 0 + b) = _
      rw [bytesToNum_foldl]
      ring_nf
    rw [hb, List.length_cons]
    have h1 : b < 256 := h b (List.mem_cons_self b ys)
    have h2 : bytesToNum ys < 256 ^ ys.length := ih (fun x hx => h x (List.mem_cons_of_mem b hx))
    calc b * 256 ^ ys.length + bytesToNum ys
        < b * 256 ^ ys.length + 256 ^ ys.length := by omega
      _ = (b + 1) * 256 ^ ys.length := by ring
      _ ≤ 256 * 256 ^ ys.length := Nat.mul_le_mul_right _ (by omega)
      _ = 256 ^ (ys.length + 1) := by ring

theorem decNumF_succ (d n : Nat) :
    decNumF (d + 1) n = decNumF d (n / 10) * 256 + (48 + n % 10) := rfl

theorem decNumF_lt (d : Nat) : ∀ n, decNumF d n < 256 ^ d := by
  induction d with
  | zero => intro n; simp [decNumF]
  | succ d ih =>
    intro n
    rw [decNumF_succ]
    have h1 := ih (n / 10)
    have h2 : n % 10 < 10 := Nat.mod_lt _ (by norm_num)
    calc decNumF d (n / 10) * 256 + (48 + n % 10)
        < decNumF d (n / 10) * 256 + 256 := by omega
      _ = (decNumF d (n / 10) + 1) * 256 := by ring
      _ ≤ 256 ^ d * 256 := Nat.mul_le_mul_right _ (by omega)
      _ = 256 ^ (d + 1) := by ring

theorem asciiL_spec : ∀ lq q, q < 10 ^ lq → (lq = 1 ∨ 10 ^ (lq - 1) ≤ q) →
    (asciiL q).length = lq ∧ bytesToNum (asciiL q) = decNumF lq q := by
  intro lq
  induction lq with
  | zero =>
    intro q hq hl
    rcases hl with hl | hl
    · omega
    · simp at hq hl; omega
  | succ l ih =>
    intro q hq hl
    by_cases hsmall : q < 10
    · have h1 : l = 0 := by
        rcases hl with hl | hl
        · omega
        · have hl' : 10 ^ l ≤ q := by simpa using hl
          by_contra hne
          have hll : 1 ≤ l := by omega
          have : 10 ^ 1 ≤ 10 ^ l := Nat.pow_le_pow_right (by norm_num) hll
          simp at this
          omega
      subst h1
      rw [asciiL_lt10 q hsmall]
      constructor
      · rfl
      · show 256 * 0 + (48 + q) = _
        rw [decNumF_succ]
        have : q % 10 = q := Nat.mod_eq_of_lt hsmall
        simp [decNumF, this]
    · have hbig : 10 ≤ q := by omega
      have hl1 : 1 ≤ l := by
        by_contra hne
        have h0 : l = 0 := by omega
        subst h0
        simp at hq
        omega
      have hdivlt : q / 10 < 10 ^ l := by
        refine (Nat.div_lt_iff_lt_mul (by norm_num : (0:Nat) < 10)).mpr ?_
        calc q < 10 ^ (l + 1) := hq
          _ = 10 ^ l * 10 := by ring
      have hdivge : 10 ^ (l - 1) ≤ q / 10 := by
        rcases hl with hl | hl
        · omega
        · have hsl : l - 1 + 1 = l := by omega
          refine Nat.le_div_iff_mul_le (by norm_num : (0:Nat) < 10) |>.mpr ?_
          calc 10 ^ (l - 1) * 10 = 10 ^ (l - 1 + 1) := by ring
            _ = 10 ^ l := by rw [hsl]
            _ ≤ q := by
              have : l + 1 - 1 = l := by omega
              rw [this] at hl
              exact hl
      obtain ⟨ihlen, ihval⟩ := ih (q / 10) hdivlt (Or.inr hdivge)
      rw [asciiL_step q hbig]
      constructor
      · rw [List.length_append, ihlen]
        simp
      · have hone : bytesToNum [48 + q % 10] = 48 + q % 10 := by
          show 256 * 0 + (48 + q % 10) = _
          ring
        rw [bytesToNum_append, ihval, decNumF_succ, hone]
        simp

theorem decNumF_split : ∀ k lq q, k ≤ lq →
    decNumF lq q = decNumF (lq - k) (q / 10 ^ k) * 256 ^ k + decNumF k (q % 10 ^ k) := by
  intro k
  induction k with
  | zero => intro lq q h; simp [decNumF]
  | succ k ih =>
    intro lq q h
    obtain ⟨l, rfl⟩ : ∃ l, lq = l + 1 := ⟨lq - 1, by omega⟩
    rw [decNumF_succ]
    have hkl : k ≤ l := by omega
    rw [ih l (q / 10) hkl]
    have e1 : q / 10 / 10 ^ k = q / 10 ^ (k + 1) := by
      rw [Nat.div_div_eq_div_mul]
      congr 1
      ring
    have e2 : q / 10 % 10 ^ k = q % 10 ^ (k + 1) / 10 := by
      have : q % 10 ^ (k + 1) = q % (10 * 10 ^ k) := by ring_nf
      rw [this, Nat.mod_mul_right_div_self]
    have e3 : q % 10 = q % 10 ^ (k + 1) % 10 := by
      have hd : (10:Nat) ∣ 10 ^ (k + 1) := Dvd.intro (10 ^ k) (by ring)
      rw [Nat.mod_mod_of_dvd q hd]
    have e4 : l + 1 - (k + 1) = l - k := by omega
    rw [e1, e2, e3, e4]
    have e5 : decNumF (k + 1) (q % 10 ^ (k + 1))
        = decNumF k (q % 10 ^ (k + 1) / 10) * 256 + (48 + q % 10 ^ (k + 1) % 10) :=
      decNumF_succ _ _
    rw [e5]
    ring

theorem toDigitsCore_eq : ∀ f n acc, n < 10 ^ (f + 1) →
    Nat.toDigitsCore 10 (f + 1) n acc = (digCharsRev (f + 1) n).reverse ++ acc := by
  intro f
  induction f with
  | zero =>
    intro n acc hn
    have h10 : n / 10 = 0 := Nat.div_eq_of_lt (by simpa using hn)
    simp [Nat.toDigitsCore, digCharsRev, h10]
  | succ f ih =>
    intro n acc hn
    by_cases h10 : n / 10 = 0
    · simp [Nat.toDigitsCore, digCharsRev, h10]
    · have hrec : Nat.toDigitsCore 10 (f + 1 + 1) n acc
          = Nat.toDigitsCore 10 (f + 1) (n / 10) (Nat.digitChar (n % 10) :: acc) := by
        show (if n / 10 = 0 then _ else _) = _
        rw [if_neg h10]
      have hb : n / 10 < 10 ^ (f + 1) := by
        refine (Nat.div_lt_iff_lt_mul (by norm_num : (0:Nat) < 10)).mpr ?_
        calc n < 10 ^ (f + 1 + 1) := hn
          _ = 10 ^ (f + 1) * 10 := by ring
      rw [hrec, ih (n / 10) _ hb]
      have hd : digCharsRev (f + 1 + 1) n
          = Nat.digitChar (n % 10) :: digCharsRev (f + 1) (n / 10) := by
        simp [digCharsRev, h10]
      rw [hd, List.reverse_cons, List.append_assoc]
      rfl

theorem decimalString_data (n : Nat) :
    (decimalString n).data = (digCharsRev (n + 1) n).reverse := by
  show (Nat.toDigits 10 n).asString.data = _
  have h1 : Nat.toDigits 10 n = Nat.toDigitsCore 10 (n + 1) n [] := rfl
  rw [h1, toDigitsCore_eq n n [] (lt_pow10_succ n), List.append_nil]
  rfl

theorem digitChar_toNat : ∀ d, d < 10 → (Nat.digitChar d).toNat = 48 + d := by decide

theorem digCharsRev_toNat : ∀ f n, (digCharsRev f n).map Char.toNat = asciiRev f n := by
  intro f
  induction f with
  | zero => intro n; rfl
  | succ f ih =>
    intro n
    show Char.toNat (Nat.digitChar (n % 10)) :: _ = (48 + n % 10) :: _
    rw [digitChar_toNat (n % 10) (Nat.mod_lt _ (by norm_num))]
    by_cases h10 : n / 10 = 0
    · simp [h10]
    · simp only [h10, if_false]
      exact congrArg _ (ih (n / 10))

theorem digCharsRev_lt128 : ∀ f n c, c ∈ digCharsRev f n → c.toNat < 128 := by
  intro f
  induction f with
  | zero => intro n c hc; simp [digCharsRev] at hc
  | succ f ih =>
    intro n c hc
    rcases List.mem_cons.mp hc with h | h
    · subst h
      rw [digitChar_toNat (n % 10) (Nat.mod_lt _ (by norm_num))]
      have := Nat.mod_lt n (show 0 < 10 by norm_num)
      omega
    · by_cases h10 : n / 10 = 0
      · rw [if_pos h10] at h
        simp at h
      · rw [if_neg h10] at h
        exact ih (n / 10) c h

theorem flatten_utf8_ascii : ∀ l : List Char, (∀ c ∈ l, c.toNat < 128) →
    (l.map utf8Bytes).flatten = l.map Char.toNat := by
  intro l
  induction l with
  | nil => intro h; rfl
  | cons c cs ih =>
    intro h
    have hc : c.toNat < 128 := h c (List.mem_cons_self c cs)
    have h1 : utf8Bytes c = [c.toNat] := by
      rw [utf8Bytes, if_pos hc]
    show (utf8Bytes c :: cs.map utf8Bytes).flatten = _
    rw [List.flatten_cons, h1, ih (fun x hx => h x (List.mem_cons_of_mem c hx))]
    rfl

theorem strBytes_decimal (n : Nat) : strBytes (decimalString n) = asciiL n := by
  rw [strBytes, decimalString_data]
  rw [flatten_utf8_ascii _ (fun c hc => digCharsRev_lt128 _ _ c (List.mem_reverse.mp hc))]
  rw [List.map_reverse, digCharsRev_toNat]
  rfl

theorem strBytes_append (s t : String) :
    strBytes (s ++ t) = strBytes s ++ strBytes t := by
  rw [strBytes, strBytes, strBytes, String.data_append, List.map_append, List.flatten_append]

theorem natShiftRight_eq (m n : Nat) : Nat.shiftRight m n = m / 2 ^ n :=
  Nat.shiftRight_eq_div_pow m n

theorem natShiftLeft_eq (m n : Nat) : Nat.shiftLeft m n = m * 2 ^ n :=
  Nat.shiftLeft_eq m n

theorem natMod_eq (m n : Nat) : Nat.mod m n = m % n := rfl

theorem natDiv_eq (m n : Nat) : Nat.div m n = m / n := rfl

theorem beBytes_length (k : Nat) : ∀ n, (beBytes k n).length = k := by
  induction k with
  | zero => intro n; rfl
  | succ k ih => intro n; show (_ :: beBytes k n).length = k + 1; rw [List.length_cons, ih]

theorem bytesToNum_cons (b : Nat) (ys : List Nat) :
    bytesToNum (b :: ys) = b * 256 ^ ys.length + bytesToNum ys := by
  show ys.foldl _ (256 * 0 + b) = _
  rw [bytesToNum_foldl]
  ring_nf

theorem bytesToNum_replicate_zero (k : Nat) : bytesToNum (List.replicate k 0) = 0 := by
  induction k with
  | zero => rfl
  | succ k ih =>
    rw [List.replicate_succ, bytesToNum_cons, ih]
    ring

theorem bytesToNum_beBytes (k : Nat) : ∀ n, bytesToNum (beBytes k n) = n % 2 ^ (8 * k) := by
  induction k with
  | zero =>
    intro n
    show (0:Nat) = n % 2 ^ (8 * 0)
    rw [Nat.mul_zero, Nat.pow_zero, Nat.mod_one]
  | succ k ih =>
    intro n
    show bytesToNum (Nat.mod (Nat.shiftRight n (8 * k)) 256 :: beBytes k n) = _
    rw [bytesToNum_cons, beBytes_length, ih, natMod_eq, natShiftRight_eq]
    have h1 : (256:Nat) ^ k = 2 ^ (8 * k) := by
      rw [show (256:Nat) = 2 ^ 8 from rfl, ← pow_mul]
    have h2 : (2:Nat) ^ (8 * (k + 1)) = 2 ^ (8 * k) * 256 := by
      rw [show 8 * (k + 1) = 8 * k + 8 from by ring, pow_add]
      rfl
    rw [h1, h2, Nat.mod_mul]
    ring

theorem pow256_pow2 (k : Nat) : (256:Nat) ^ k = 2 ^ (8 * k) := by
  rw [show (256:Nat) = 2 ^ 8 from rfl, ← pow_mul]

theorem padBytes_eq (msg : List Nat) (h : msg.length ≤ 55) :
    padBytes msg = msg ++ 128 :: (List.replicate (55 - msg.length) 0 ++ beBytes 8 (8 * msg.length)) := by
  have hz : Nat.mod (64 - Nat.mod (msg.length + 9) 64) 64 = 55 - msg.length := by
    rw [natMod_eq, natMod_eq]
    omega
  show msg ++ 128 :: (List.replicate (Nat.mod (64 - Nat.mod (msg.length + 9) 64) 64) 0
    ++ beBytes 8 (8 * msg.length)) = _
  rw [hz]

theorem padBytes_length (msg : List Nat) (h : msg.length ≤ 55) :
    (padBytes msg).length = 64 := by
  rw [padBytes_eq msg h]
  simp [beBytes_length]
  omega

theorem bytesToNum_padBytes (msg : List Nat) (h : msg.length ≤ 55) :
    bytesToNum (padBytes msg) = blockNum msg := by
  rw [padBytes_eq msg h, bytesToNum_append, bytesToNum_cons, bytesToNum_append,
    bytesToNum_replicate_zero, bytesToNum_beBytes, beBytes_length]
  simp only [List.length_cons, List.length_append, List.length_replicate, beBytes_length]
  have h8 : 8 * msg.length % 2 ^ (8 * 8) = 8 * msg.length := by
    apply Nat.mod_eq_of_lt
    calc 8 * msg.length ≤ 8 * 55 := by omega
      _ < 2 ^ (8 * 8) := by norm_num
  rw [h8, blockNum]
  have e1 : 55 - msg.length + 8 = 63 - msg.length := by omega
  rw [e1]
  have e3 : (256:Nat) ^ (63 - msg.length + 1) = 2 ^ 8 * 2 ^ (8 * (63 - msg.length)) := by
    rw [pow256_pow2, ← pow_add]
    congr 1
    omega
  rw [e3, pow256_pow2 (63 - msg.length)]
  ring

theorem toWords_range : ∀ k (l : List Nat), (∀ b ∈ l, b < 256) → l.length = 4 * k →
    toWords l = (List.range k).map (fun j => bytesToNum l / 2 ^ (32 * (k - 1 - j)) % 2 ^ 32) := by
  intro k
  induction k with
  | zero =>
    intro l hb hlen
    have : l = [] := List.eq_nil_of_length_eq_zero (by omega)
    subst this
    rfl
  | succ k ih =>
    intro l hb hlen
    rcases l with _ | ⟨b0, l⟩; · exfalso; simp at hlen
    rcases l with _ | ⟨b1, l⟩; · exfalso; simp [List.length_cons] at hlen; omega
    rcases l with _ | ⟨b2, l⟩; · exfalso; simp [List.length_cons] at hlen; omega
    rcases l with _ | ⟨b3, rest⟩; · exfalso; simp [List.length_cons] at hlen; omega
    have hrest : rest.length = 4 * k := by
      simp [List.length_cons] at hlen
      omega
    have hb0 : b0 < 256 := hb b0 (by simp)
    have hb1 : b1 < 256 := hb b1 (by simp)
    have hb2 : b2 < 256 := hb b2 (by simp)
    have hb3 : b3 < 256 := hb b3 (by simp)
    have hbrest : ∀ b ∈ rest, b < 256 := fun b hbm => hb b (by simp [hbm])
    set w := ((b0 * 256 + b1) * 256 + b2) * 256 + b3 with hw
    have hwlt : w < 2 ^ 32 := by rw [hw]; norm_num; omega
    have hsplit : bytesToNum (b0 :: b1 :: b2 :: b3 :: rest) = w * 2 ^ (32 * k) + bytesToNum rest := by
      have hl : (b0 :: b1 :: b2 :: b3 :: rest) = [b0, b1, b2, b3] ++ rest := rfl
      rw [hl, bytesToNum_append, hrest]
      have hfour : bytesToNum [b0, b1, b2, b3] = w := by
        rw [bytesToNum_cons, bytesToNum_cons, bytesToNum_cons, bytesToNum_cons]
        show b0 * 256 ^ 3 + (b1 * 256 ^ 2 + (b2 * 256 ^ 1 + (b3 * 256 ^ 0 + bytesToNum []))) = w
        have hnil : bytesToNum ([] : List Nat) = 0 := rfl
        rw [hnil, hw]
        ring
      rw [hfour, pow256_pow2]
      have e : 8 * (4 * k) = 32 * k := by ring
      rw [e]
    have hrlt : bytesToNum rest < 2 ^ (32 * k) := by
      have hby := bytesToNum_lt rest hbrest
      rw [hrest, pow256_pow2] at hby
      have e : 8 * (4 * k) = 32 * k := by ring
      rwa [e] at hby
    have htw : toWords (b0 :: b1 :: b2 :: b3 :: rest) = w :: toWords rest := rfl
    rw [htw, ih rest hbrest hrest, List.range_succ_eq_map, List.map_cons, List.map_map]
    congr 1
    · have e : k + 1 - 1 - 0 = k := by omega
      rw [hsplit, e]
      have hdiv : (w * 2 ^ (32 * k) + bytesToNum rest) / 2 ^ (32 * k) = w := by
        rw [add_comm, Nat.add_mul_div_right _ _ (show 0 < (2:Nat) ^ (32 * k) by positivity),
          Nat.div_eq_of_lt hrlt, Nat.zero_add]
      rw [hdiv, Nat.mod_eq_of_lt hwlt]
    · apply List.map_congr_left
      intro j hj
      have hjk : j < k := List.mem_range.mp hj
      show bytesToNum rest / 2 ^ (32 * (k - 1 - j)) % 2 ^ 32
          = bytesToNum (b0 :: b1 :: b2 :: b3 :: rest) / 2 ^ (32 * (k + 1 - 1 - (j + 1))) % 2 ^ 32
      have e : k + 1 - 1 - (j + 1) = k - 1 - j := by omega
      rw [e, hsplit]
      have hd : 32 * k = 32 * (k - 1 - j) + 32 * (j + 1) := by omega
      rw [hd, pow_add]
      have hre : w * (2 ^ (32 * (k - 1 - j)) * 2 ^ (32 * (j + 1))) + bytesToNum rest
          = bytesToNum rest + w * 2 ^ (32 * (j + 1)) * 2 ^ (32 * (k - 1 - j)) := by ring
      rw [hre, Nat.add_mul_div_right _ _ (show 0 < (2:Nat) ^ (32 * (k - 1 - j)) by positivity)]
      have h32 : 32 * (j + 1) = 32 + 32 * j := by ring
      rw [h32, pow_add]
      have hre2 : bytesToNum rest / 2 ^ (32 * (k - 1 - j)) + w * (2 ^ 32 * 2 ^ (32 * j))
          = bytesToNum rest / 2 ^ (32 * (k - 1 - j)) + 2 ^ 32 * (w * 2 ^ (32 * j)) := by ring
      rw [hre2, Nat.add_mul_mod_self_left]

theorem toBlocks_nil (fuel : Nat) : toBlocks fuel [] = [] := by
  cases fuel <;> rfl

theorem toBlocks_single (fuel : Nat) (ws : List Nat) (hne : ws ≠ [])
    (hlen : ws.length ≤ 16) : toBlocks (fuel + 1) ws = [ws] := by
  rcases ws with _ | ⟨w, ws⟩
  · exact absurd rfl hne
  · show (w :: ws).take 16 :: toBlocks fuel ((w :: ws).drop 16) = [w :: ws]
    rw [List.take_of_length_le hlen, List.drop_eq_nil_of_le hlen, toBlocks_nil]

theorem padBytes_bytes_lt (msg : List Nat) (hb : ∀ b ∈ msg, b < 256) :
    ∀ b ∈ padBytes msg, b < 256 := by
  intro b hbm
  rw [padBytes] at hbm
  simp only [List.mem_append, List.mem_cons, List.mem_replicate] at hbm
  rcases hbm with h | h | h | h
  · exact hb b h
  · omega
  · omega
  · -- b ∈ beBytes 8 (8 * msg.length)
    clear hb
    revert h
    generalize 8 * msg.length = n
    generalize hk : (8:Nat) = k
    clear hk
    induction k generalizing n with
    | zero => intro h; simp [beBytes] at h
    | succ k ih =>
      intro h
      rcases List.mem_cons.mp h with h1 | h1
      · subst h1
        have : Nat.mod (Nat.shiftRight n (8 * k)) 256 < 256 := by
          rw [natMod_eq]
          exact Nat.mod_lt _ (by norm_num)
        exact this
      · exact ih n h1

theorem toWords_padBytes (msg : List Nat) (hb : ∀ b ∈ msg, b < 256) (h : msg.length ≤ 55) :
    toWords (padBytes msg)
      = (List.range 16).map (fun j => blockNum msg / 2 ^ (32 * (15 - j)) % 2 ^ 32) := by
  have h64 : (padBytes msg).length = 4 * 16 := by rw [padBytes_length msg h]
  rw [toWords_range 16 (padBytes msg) (padBytes_bytes_lt msg hb) h64, bytesToNum_padBytes msg h]

theorem sha256_single (msg : List Nat) (hb : ∀ b ∈ msg, b < 256) (h : msg.length ≤ 55) :
    sha256 msg = compress H0 (toWords (padBytes msg)) := by
  rw [sha256]
  have hlen : (toWords (padBytes msg)).length = 16 := by
    rw [toWords_padBytes msg hb h]
    simp
  rw [hlen]
  have hne : toWords (padBytes msg) ≠ [] := by
    intro hcon
    rw [hcon] at hlen
    simp at hlen
  rw [show (16:Nat) = 15 + 1 from rfl, toBlocks_single 15 _ hne (by omega)]
  rfl

theorem compress_a_lt (s : H8) (b : List Nat) : (compress s b).a < 2 ^ 32 := by
  show Nat.mod _ 4294967296 < 2 ^ 32
  rw [natMod_eq]
  exact Nat.mod_lt _ (by norm_num)

theorem foldl_compress_a_lt : ∀ (bl : List (List Nat)) (s : H8), s.a < 2 ^ 32 →
    (bl.foldl compress s).a < 2 ^ 32 := by
  intro bl
  induction bl with
  | nil => intro s h; exact h
  | cons b bl ih =>
    intro s h
    show ((bl.foldl compress (compress s b))).a < 2 ^ 32
    exact ih _ (compress_a_lt s b)

theorem sha256_a_lt (msg : List Nat) : (sha256 msg).a < 2 ^ 32 :=
  foldl_compress_a_lt _ H0 (by norm_num [H0])

theorem take4_digestHex (s : H8) : (digestHex s).data.take 4
    = [hexChar (Nat.mod (Nat.shiftRight s.a 28) 16), hexChar (Nat.mod (Nat.shiftRight s.a 24) 16),
       hexChar (Nat.mod (Nat.shiftRight s.a 20) 16), hexChar (Nat.mod (Nat.shiftRight s.a 16) 16)] := rfl

theorem hexChar_zero : ∀ n, n < 16 → (hexChar n = '0' ↔ n = 0) := by decide

theorem nibbles_zero (x : Nat) (hx : x < 2 ^ 32) :
    (x / 2 ^ 28 % 16 = 0 ∧ x / 2 ^ 24 % 16 = 0 ∧ x / 2 ^ 20 % 16 = 0 ∧ x / 2 ^ 16 % 16 = 0)
      ↔ x / 2 ^ 16 = 0 := by
  have hy : x / 2 ^ 16 < 2 ^ 16 := by
    refine (Nat.div_lt_iff_lt_mul (by positivity)).mpr ?_
    calc x < 2 ^ 32 := hx
      _ = 2 ^ 16 * 2 ^ 16 := by norm_num
  have e20 : x / 2 ^ 20 = x / 2 ^ 16 / 16 := by
    rw [Nat.div_div_eq_div_mul]
    norm_num
  have e24 : x / 2 ^ 24 = x / 2 ^ 16 / 256 := by
    rw [Nat.div_div_eq_div_mul]
    norm_num
  have e28 : x / 2 ^ 28 = x / 2 ^ 16 / 4096 := by
    rw [Nat.div_div_eq_div_mul]
    norm_num
  rw [e20, e24, e28]
  omega

theorem valid_proof_iff (a q : Nat) :
    valid_proof a q = true ↔ (sha256 (msgBytesPow a q)).a / 2 ^ 16 = 0 := by
  have hstr : strBytes (decimalString a ++ decimalString q) = msgBytesPow a q := by
    rw [strBytes_append, strBytes_decimal, strBytes_decimal, msgBytesPow]
  rw [valid_proof, sha256hex, hstr]
  rw [beq_iff_eq]
  rw [take4_digestHex]
  set x := (sha256 (msgBytesPow a q)).a with hxdef
  have hx : x < 2 ^ 32 := sha256_a_lt _
  simp only [List.cons.injEq, and_true]
  have hnib : ∀ k, Nat.mod (Nat.shiftRight x k) 16 < 16 := by
    intro k
    rw [natMod_eq]
    exact Nat.mod_lt _ (by norm_num)
  rw [hexChar_zero _ (hnib 28), hexChar_zero _ (hnib 24), hexChar_zero _ (hnib 20),
    hexChar_zero _ (hnib 16)]
  have hsr : ∀ k, Nat.mod (Nat.shiftRight x k) 16 = x / 2 ^ k % 16 := by
    intro k
    rw [natMod_eq, natShiftRight_eq]
  rw [hsr 28, hsr 24, hsr 20, hsr 16]
  exact nibbles_zero x hx

theorem natLand_eq (a b : Nat) : Nat.land a b = a &&& b := rfl

theorem natLor_eq (a b : Nat) : Nat.lor a b = a ||| b := rfl

theorem natXor_eq (a b : Nat) : Nat.xor a b = a ^^^ b := rfl

theorem natShiftRight_eq2 (a b : Nat) : Nat.shiftRight a b = a >>> b := rfl

theorem natShiftLeft_eq2 (a b : Nat) : Nat.shiftLeft a b = a <<< b := rfl

theorem assemble_succ (L : Nat) (f : Nat → Nat) :
    assemble (L + 1) f = 2 ^ 512 * assemble L (fun i => f (i + 1)) + f 0 := rfl

theorem assemble_congr : ∀ (L : Nat) (f g : Nat → Nat), (∀ i, i < L → f i = g i) →
    assemble L f = assemble L g := by
  intro L
  induction L with
  | zero => intro f g h; rfl
  | succ L ih =>
    intro f g h
    rw [assemble_succ, assemble_succ, h 0 (by omega),
      ih (fun i => f (i + 1)) (fun i => g (i + 1)) (fun i hi => h (i + 1) (by omega))]

theorem assemble_zero_fn : ∀ L, assemble L (fun _ => 0) = 0 := by
  intro L
  induction L with
  | zero => rfl
  | succ L ih =>
    rw [assemble_succ, ih]
    ring

theorem assemble_lt : ∀ (L : Nat) (f : Nat → Nat), (∀ i, i < L → f i < 2 ^ 512) →
    assemble L f < 2 ^ (512 * L) := by
  intro L
  induction L with
  | zero => intro f h; simp [assemble]
  | succ L ih =>
    intro f h
    rw [assemble_succ]
    have h1 : assemble L (fun i => f (i + 1)) < 2 ^ (512 * L) :=
      ih _ (fun i hi => h (i + 1) (by omega))
    have h2 : f 0 < 2 ^ 512 := h 0 (by omega)
    have e : 512 * (L + 1) = 512 + 512 * L := by ring
    rw [e, pow_add]
    calc 2 ^ 512 * assemble L (fun i => f (i + 1)) + f 0
        < 2 ^ 512 * assemble L (fun i => f (i + 1)) + 2 ^ 512 := by omega
      _ = 2 ^ 512 * (assemble L (fun i => f (i + 1)) + 1) := by ring
      _ ≤ 2 ^ 512 * 2 ^ (512 * L) := Nat.mul_le_mul_left _ (by omega)

theorem assemble_add : ∀ (L : Nat) (f g : Nat → Nat),
    assemble L f + assemble L g = assemble L (fun i => f i + g i) := by
  intro L
  induction L with
  | zero => intro f g; rfl
  | succ L ih =>
    intro f g
    rw [assemble_succ, assemble_succ, assemble_succ, ← ih]
    ring

theorem assemble_mul : ∀ (L : Nat) (k : Nat) (f : Nat → Nat),
    k * assemble L f = assemble L (fun i => k * f i) := by
  intro L
  induction L with
  | zero => intro k f; rfl
  | succ L ih =>
    intro k f
    rw [assemble_succ, assemble_succ, ← ih]
    ring

theorem assemble_split : ∀ (n k : Nat) (f : Nat → Nat),
    assemble (n + k) f = assemble n f + 2 ^ (512 * n) * assemble k (fun j => f (n + j)) := by
  intro n
  induction n with
  | zero =>
    intro k f
    rw [Nat.zero_add]
    rw [assemble_congr k (fun j => f (0 + j)) f (fun i hi => by show f (0 + i) = f i; rw [Nat.zero_add])]
    show assemble k f = 0 + 2 ^ (512 * 0) * assemble k f
    ring_nf
  | succ n ih =>
    intro k f
    have e : n + 1 + k = (n + k) + 1 := by ring
    rw [e, assemble_succ, ih k (fun i => f (i + 1)), assemble_succ]
    have e2 : ∀ j, f (n + j + 1) = f (n + 1 + j) := fun j => by
      have : n + j + 1 = n + 1 + j := by ring
      rw [this]
    rw [assemble_congr k (fun j => f (n + j + 1)) (fun j => f (n + 1 + j))
      (fun j hj => e2 j)]
    have e3 : 512 * (n + 1) = 512 + 512 * n := by ring
    rw [e3, pow_add]
    ring

theorem assemble_extract : ∀ (L : Nat) (f : Nat → Nat), (∀ i, i < L → f i < 2 ^ 512) →
    ∀ i, i < L → assemble L f / 2 ^ (512 * i) % 2 ^ 512 = f i := by
  intro L f hf i hi
  have hL : i + (L - i) = L := by omega
  have hsplit := assemble_split i (L - i) f
  rw [hL] at hsplit
  have hpre : assemble i f < 2 ^ (512 * i) := assemble_lt i f (fun j hj => hf j (by omega))
  rw [hsplit]
  have hcomm : assemble i f + 2 ^ (512 * i) * assemble (L - i) (fun j => f (i + j))
      = assemble i f + assemble (L - i) (fun j => f (i + j)) * 2 ^ (512 * i) := by ring
  rw [hcomm, Nat.add_mul_div_right _ _ (show 0 < (2:Nat) ^ (512 * i) by positivity),
    Nat.div_eq_of_lt hpre, Nat.zero_add]
  have hLi : L - i = (L - i - 1) + 1 := by omega
  rw [hLi, assemble_succ]
  have e0 : f (i + 0) = f i := by rw [Nat.add_zero]
  rw [e0, Nat.mul_add_mod, Nat.mod_eq_of_lt (hf i hi)]

theorem assemble_inj (L : Nat) (f g : Nat → Nat) (hf : ∀ i, i < L → f i < 2 ^ 512)
    (hg : ∀ i, i < L → g i < 2 ^ 512) (h : assemble L f = assemble L g) :
    ∀ i, i < L → f i = g i := by
  intro i hi
  rw [← assemble_extract L f hf i hi, ← assemble_extract L g hg i hi, h]

theorem land_pack (a b A B : Nat) (ha : a < 2 ^ 512) (hb : b < 2 ^ 512) :
    (2 ^ 512 * A + a) &&& (2 ^ 512 * B + b) = 2 ^ 512 * (A &&& B) + (a &&& b) := by
  have hc : a &&& b < 2 ^ 512 := lt_of_le_of_lt Nat.and_le_left ha
  apply Nat.eq_of_testBit_eq
  intro j
  rw [Nat.testBit_and, Nat.testBit_mul_pow_two_add A ha, Nat.testBit_mul_pow_two_add B hb,
    Nat.testBit_mul_pow_two_add (A &&& B) hc]
  by_cases hj : j < 512
  · simp [hj, Nat.testBit_and]
  · simp [hj, Nat.testBit_and]

theorem lor_pack (a b A B : Nat) (ha : a < 2 ^ 512) (hb : b < 2 ^ 512) :
    (2 ^ 512 * A + a) ||| (2 ^ 512 * B + b) = 2 ^ 512 * (A ||| B) + (a ||| b) := by
  have hc : a ||| b < 2 ^ 512 := Nat.or_lt_two_pow ha hb
  apply Nat.eq_of_testBit_eq
  intro j
  rw [Nat.testBit_or, Nat.testBit_mul_pow_two_add A ha, Nat.testBit_mul_pow_two_add B hb,
    Nat.testBit_mul_pow_two_add (A ||| B) hc]
  by_cases hj : j < 512
  · simp [hj, Nat.testBit_or]
  · simp [hj, Nat.testBit_or]

theorem xor_pack (a b A B : Nat) (ha : a < 2 ^ 512) (hb : b < 2 ^ 512) :
    (2 ^ 512 * A + a) ^^^ (2 ^ 512 * B + b) = 2 ^ 512 * (A ^^^ B) + (a ^^^ b) := by
  have hc : a ^^^ b < 2 ^ 512 := Nat.xor_lt_two_pow ha hb
  apply Nat.eq_of_testBit_eq
  intro j
  rw [Nat.testBit_xor, Nat.testBit_mul_pow_two_add A ha, Nat.testBit_mul_pow_two_add B hb,
    Nat.testBit_mul_pow_two_add (A ^^^ B) hc]
  by_cases hj : j < 512
  · simp [hj, Nat.testBit_xor]
  · simp [hj, Nat.testBit_xor]

theorem shr_land_pack (s a b A B : Nat) (hs : s ≤ 512) (ha : a < 2 ^ 512)
    (hb : b < 2 ^ (512 - s)) :
    ((2 ^ 512 * A + a) >>> s) &&& (2 ^ 512 * B + b)
      = 2 ^ 512 * ((A >>> s) &&& B) + ((a >>> s) &&& b) := by
  have hb' : b < 2 ^ 512 := lt_of_lt_of_le hb (Nat.pow_le_pow_right (by norm_num) (by omega))
  have hab : (a >>> s) &&& b < 2 ^ 512 := lt_of_le_of_lt Nat.and_le_right hb'
  apply Nat.eq_of_testBit_eq
  intro j
  rw [Nat.testBit_and, Nat.testBit_shiftRight, Nat.testBit_mul_pow_two_add A ha,
    Nat.testBit_mul_pow_two_add B hb', Nat.testBit_mul_pow_two_add _ hab]
  by_cases hj : j < 512
  · simp only [if_pos hj]
    by_cases hjb : j < 512 - s
    · have hsj : s + j < 512 := by omega
      simp only [if_pos hsj, Nat.testBit_and, Nat.testBit_shiftRight]
    · have hbf : b.testBit j = false :=
        Nat.testBit_eq_false_of_lt (lt_of_lt_of_le hb (Nat.pow_le_pow_right (by norm_num) (by omega)))
      simp only [hbf, Bool.and_false, Nat.testBit_and]
  · have hsj : ¬ s + j < 512 := by omega
    simp only [if_neg hj, if_neg hsj, Nat.testBit_and, Nat.testBit_shiftRight]
    have e : s + j - 512 = s + (j - 512) := by omega
    rw [e]

theorem assemble_land : ∀ (L : Nat) (f g : Nat → Nat), (∀ i, i < L → f i < 2 ^ 512) →
    (∀ i, i < L → g i < 2 ^ 512) →
    assemble L f &&& assemble L g = assemble L (fun i => f i &&& g i) := by
  intro L
  induction L with
  | zero => intro f g _ _; simp [assemble]
  | succ L ih =>
    intro f g hf hg
    rw [assemble_succ, assemble_succ, assemble_succ,
      land_pack _ _ _ _ (hf 0 (by omega)) (hg 0 (by omega)),
      ih _ _ (fun i hi => hf (i + 1) (by omega)) (fun i hi => hg (i + 1) (by omega))]

theorem assemble_lor : ∀ (L : Nat) (f g : Nat → Nat), (∀ i, i < L → f i < 2 ^ 512) →
    (∀ i, i < L → g i < 2 ^ 512) →
    assemble L f ||| assemble L g = assemble L (fun i => f i ||| g i) := by
  intro L
  induction L with
  | zero => intro f g _ _; simp [assemble]
  | succ L ih =>
    intro f g hf hg
    rw [assemble_succ, assemble_succ, assemble_succ,
      lor_pack _ _ _ _ (hf 0 (by omega)) (hg 0 (by omega)),
      ih _ _ (fun i hi => hf (i + 1) (by omega)) (fun i hi => hg (i + 1) (by omega))]

theorem assemble_xor : ∀ (L : Nat) (f g : Nat → Nat), (∀ i, i < L → f i < 2 ^ 512) →
    (∀ i, i < L → g i < 2 ^ 512) →
    assemble L f ^^^ assemble L g = assemble L (fun i => f i ^^^ g i) := by
  intro L
  induction L with
  | zero => intro f g _ _; simp [assemble]
  | succ L ih =>
    intro f g hf hg
    rw [assemble_succ, assemble_succ, assemble_succ,
      xor_pack _ _ _ _ (hf 0 (by omega)) (hg 0 (by omega)),
      ih _ _ (fun i hi => hf (i + 1) (by omega)) (fun i hi => hg (i + 1) (by omega))]

theorem assemble_shr_land (s : Nat) (hs : s ≤ 512) : ∀ (L : Nat) (f g : Nat → Nat),
    (∀ i, i < L → f i < 2 ^ 512) → (∀ i, i < L → g i < 2 ^ (512 - s)) →
    (assemble L f >>> s) &&& assemble L g
      = assemble L (fun i => (f i >>> s) &&& g i) := by
  intro L
  induction L with
  | zero => intro f g _ _; simp [assemble]
  | succ L ih =>
    intro f g hf hg
    rw [assemble_succ, assemble_succ, assemble_succ,
      shr_land_pack s _ _ _ _ hs (hf 0 (by omega)) (hg 0 (by omega)),
      ih _ _ (fun i hi => hf (i + 1) (by omega)) (fun i hi => hg (i + 1) (by omega))]

theorem assemble_shl (t : Nat) : ∀ (L : Nat) (f : Nat → Nat),
    assemble L f <<< t = assemble L (fun i => f i <<< t) := by
  intro L f
  rw [Nat.shiftLeft_eq, mul_comm, assemble_mul]
  apply assemble_congr
  intro i hi
  rw [Nat.shiftLeft_eq]
  ring

theorem onesP_eq (L : Nat) : onesP L = assemble L (fun _ => 1) := by
  have key : ∀ n, 1 + (2 ^ 512 - 1) * assemble n (fun _ => 1) = 2 ^ (512 * n) := by
    intro n
    induction n with
    | zero => simp [assemble]
    | succ n ih =>
      rw [assemble_succ]
      have e : 512 * (n + 1) = 512 + 512 * n := by ring
      rw [e, pow_add, ← ih]
      have h512 : (1:Nat) ≤ 2 ^ 512 := Nat.one_le_two_pow
      obtain ⟨c, hc⟩ : ∃ c, (2:Nat) ^ 512 = c + 1 := ⟨2 ^ 512 - 1, by omega⟩
      rw [hc]
      have hsub : c + 1 - 1 = c := by omega
      rw [hsub]
      ring
  have h2 : (2 ^ (512 * L) - 1) = (2 ^ 512 - 1) * assemble L (fun _ => 1) := by
    have := key L
    omega
  rw [onesP, h2, Nat.mul_div_cancel_left _ (by norm_num : 0 < (2:Nat) ^ 512 - 1)]


theorem repl_eq (k L : Nat) : k * onesP L = assemble L (fun _ => k) := by
  rw [onesP_eq, assemble_mul]
  exact assemble_congr L _ _ (fun i hi => by show k * 1 = k; ring)

theorem lanes32_512 {L : Nat} {f : Nat → Nat} (h : Lanes32 L f) :
    ∀ i, i < L → f i < 2 ^ 512 :=
  fun i hi => lt_of_lt_of_le (h i hi) (Nat.pow_le_pow_right (by norm_num) (by norm_num))

theorem mask_lt_sub {s : Nat} (hs : s ≤ 480) : (4294967295:Nat) < 2 ^ (512 - s) :=
  lt_of_lt_of_le (by norm_num : (4294967295:Nat) < 2 ^ 32)
    (Nat.pow_le_pow_right (by norm_num) (by omega))

theorem and_mask_eq (x : Nat) : x &&& 4294967295 = x % 4294967296 := by
  rw [show (4294967295:Nat) = 2 ^ 32 - 1 from by norm_num, Nat.and_pow_two_sub_one_eq_mod,
    show (2:Nat) ^ 32 = 4294967296 from by norm_num]

theorem and_mask_self (x : Nat) (h : x < 2 ^ 32) : x &&& 4294967295 = x := by
  rw [and_mask_eq, Nat.mod_eq_of_lt (by norm_num at h ⊢; omega)]

theorem shiftRight_le_self (x n : Nat) : x >>> n ≤ x := by
  rw [Nat.shiftRight_eq_div_pow]
  exact Nat.div_le_self _ _

theorem rotr_lt (n x : Nat) (h : x < 2 ^ 32) : rotr n x < 2 ^ 32 := by
  rw [rotr, natLor_eq, natShiftRight_eq2, natMod_eq]
  exact Nat.or_lt_two_pow (lt_of_le_of_lt (shiftRight_le_self x n) h)
    (by rw [show (4294967296:Nat) = 2 ^ 32 from by norm_num] at *; exact Nat.mod_lt _ (by positivity))

theorem bigS0_lt (x : Nat) (h : x < 2 ^ 32) : bigS0 x < 2 ^ 32 := by
  rw [bigS0, natXor_eq, natXor_eq]
  exact Nat.xor_lt_two_pow (rotr_lt _ _ h) (Nat.xor_lt_two_pow (rotr_lt _ _ h) (rotr_lt _ _ h))

theorem bigS1_lt (x : Nat) (h : x < 2 ^ 32) : bigS1 x < 2 ^ 32 := by
  rw [bigS1, natXor_eq, natXor_eq]
  exact Nat.xor_lt_two_pow (rotr_lt _ _ h) (Nat.xor_lt_two_pow (rotr_lt _ _ h) (rotr_lt _ _ h))

theorem smallS0_lt (x : Nat) (h : x < 2 ^ 32) : smallS0 x < 2 ^ 32 := by
  rw [smallS0, natXor_eq, natXor_eq, natShiftRight_eq2]
  exact Nat.xor_lt_two_pow (rotr_lt _ _ h)
    (Nat.xor_lt_two_pow (rotr_lt _ _ h) (lt_of_le_of_lt (shiftRight_le_self x 3) h))

theorem smallS1_lt (x : Nat) (h : x < 2 ^ 32) : smallS1 x < 2 ^ 32 := by
  rw [smallS1, natXor_eq, natXor_eq, natShiftRight_eq2]
  exact Nat.xor_lt_two_pow (rotr_lt _ _ h)
    (Nat.xor_lt_two_pow (rotr_lt _ _ h) (lt_of_le_of_lt (shiftRight_le_self x 10) h))

theorem ch_lt (e f g : Nat) (he : e < 2 ^ 32) (hg : g < 2 ^ 32) : ch e f g < 2 ^ 32 := by
  rw [ch, natXor_eq, natLand_eq, natLand_eq, natXor_eq]
  exact Nat.xor_lt_two_pow (lt_of_le_of_lt Nat.and_le_left he)
    (lt_of_le_of_lt Nat.and_le_right hg)

theorem maj_lt (a b c : Nat) (ha : a < 2 ^ 32) (hb : b < 2 ^ 32) : maj a b c < 2 ^ 32 := by
  rw [maj, natXor_eq, natXor_eq, natLand_eq, natLand_eq, natLand_eq]
  exact Nat.xor_lt_two_pow (lt_of_le_of_lt Nat.and_le_left ha)
    (Nat.xor_lt_two_pow (lt_of_le_of_lt Nat.and_le_left ha)
      (lt_of_le_of_lt Nat.and_le_left hb))

theorem rotrB_lanes (n L : Nat) (hn : n ≤ 32) (hnz : 0 < n) (f : Nat → Nat)
    (hf : Lanes32 L f) :
    rotrB (4294967295 * onesP L) n (assemble L f) = assemble L (fun i => rotr n (f i)) := by
  rw [rotrB, natLor_eq, natLand_eq, natLand_eq, natShiftRight_eq2, natShiftLeft_eq2, repl_eq]
  rw [assemble_shr_land n (by omega) L f _ (lanes32_512 hf)
    (fun i hi => mask_lt_sub (by omega))]
  rw [assemble_shl (32 - n) L f]
  rw [assemble_land L _ _ (fun i hi => by
      rw [Nat.shiftLeft_eq]
      calc f i * 2 ^ (32 - n) < 2 ^ 32 * 2 ^ (32 - n) :=
        (Nat.mul_lt_mul_right (by positivity)).mpr (hf i hi)
        _ = 2 ^ (32 + (32 - n)) := by rw [pow_add]
        _ ≤ 2 ^ 512 := Nat.pow_le_pow_right (by norm_num) (by omega))
    (fun i hi => by norm_num)]
  rw [assemble_lor L _ _
    (fun i hi => lt_of_le_of_lt Nat.and_le_right (by norm_num))
    (fun i hi => lt_of_le_of_lt Nat.and_le_right (by norm_num))]
  apply assemble_congr
  intro i hi
  show ((f i >>> n) &&& 4294967295) ||| ((f i <<< (32 - n)) &&& 4294967295) = rotr n (f i)
  rw [rotr, natLor_eq, natShiftRight_eq2, natShiftLeft_eq2, natMod_eq]
  rw [and_mask_self _ (lt_of_le_of_lt (shiftRight_le_self _ n) (hf i hi)), and_mask_eq]

theorem bigS0B_lanes (L : Nat) (f : Nat → Nat) (hf : Lanes32 L f) :
    bigS0B (4294967295 * onesP L) (assemble L f) = assemble L (fun i => bigS0 (f i)) := by
  rw [bigS0B, natXor_eq, natXor_eq,
    rotrB_lanes 2 L (by norm_num) (by norm_num) f hf,
    rotrB_lanes 13 L (by norm_num) (by norm_num) f hf,
    rotrB_lanes 22 L (by norm_num) (by norm_num) f hf]
  rw [assemble_xor L _ _ (fun i hi => lanes32_512 (fun j hj => rotr_lt 13 _ (hf j hj)) i hi)
    (fun i hi => lanes32_512 (fun j hj => rotr_lt 22 _ (hf j hj)) i hi)]
  rw [assemble_xor L _ _ (fun i hi => lanes32_512 (fun j hj => rotr_lt 2 _ (hf j hj)) i hi)
    (fun i hi => lanes32_512 (fun j hj => Nat.xor_lt_two_pow (rotr_lt 13 _ (hf j hj)) (rotr_lt 22 _ (hf j hj))) i hi)]
  apply assemble_congr
  intro i hi
  rw [bigS0, natXor_eq, natXor_eq]

theorem bigS1B_lanes (L : Nat) (f : Nat → Nat) (hf : Lanes32 L f) :
    bigS1B (4294967295 * onesP L) (assemble L f) = assemble L (fun i => bigS1 (f i)) := by
  rw [bigS1B, natXor_eq, natXor_eq,
    rotrB_lanes 6 L (by norm_num) (by norm_num) f hf,
    rotrB_lanes 11 L (by norm_num) (by norm_num) f hf,
    rotrB_lanes 25 L (by norm_num) (by norm_num) f hf]
  rw [assemble_xor L _ _ (fun i hi => lanes32_512 (fun j hj => rotr_lt 11 _ (hf j hj)) i hi)
    (fun i hi => lanes32_512 (fun j hj => rotr_lt 25 _ (hf j hj)) i hi)]
  rw [assemble_xor L _ _ (fun i hi => lanes32_512 (fun j hj => rotr_lt 6 _ (hf j hj)) i hi)
    (fun i hi => lanes32_512 (fun j hj => Nat.xor_lt_two_pow (rotr_lt 11 _ (hf j hj)) (rotr_lt 25 _ (hf j hj))) i hi)]
  apply assemble_congr
  intro i hi
  rw [bigS1, natXor_eq, natXor_eq]

theorem smallS0B_lanes (L : Nat) (f : Nat → Nat) (hf : Lanes32 L f) :
    smallS0B (4294967295 * onesP L) (assemble L f) = assemble L (fun i => smallS0 (f i)) := by
  rw [smallS0B, natXor_eq, natXor_eq, natLand_eq, natShiftRight_eq2,
    rotrB_lanes 7 L (by norm_num) (by norm_num) f hf,
    rotrB_lanes 18 L (by norm_num) (by norm_num) f hf]
  rw [repl_eq]
  rw [assemble_shr_land 3 (by norm_num) L f _ (lanes32_512 hf)
    (fun i hi => mask_lt_sub (by norm_num))]
  rw [assemble_xor L _ _ (fun i hi => lanes32_512 (fun j hj => rotr_lt 18 _ (hf j hj)) i hi)
    (fun i hi => lt_of_le_of_lt Nat.and_le_right (by norm_num))]
  rw [assemble_xor L _ _ (fun i hi => lanes32_512 (fun j hj => rotr_lt 7 _ (hf j hj)) i hi)
    (fun i hi => lanes32_512 (fun j hj => Nat.xor_lt_two_pow (rotr_lt 18 _ (hf j hj))
      (lt_of_le_of_lt Nat.and_le_right (by norm_num : (4294967295:Nat) < 2 ^ 32))) i hi)]
  apply assemble_congr
  intro i hi
  show rotr 7 (f i) ^^^ (rotr 18 (f i) ^^^ ((f i >>> 3) &&& 4294967295)) = smallS0 (f i)
  rw [smallS0, natXor_eq, natXor_eq, natShiftRight_eq2,
    and_mask_self _ (lt_of_le_of_lt (shiftRight_le_self _ 3) (hf i hi))]

theorem smallS1B_lanes (L : Nat) (f : Nat → Nat) (hf : Lanes32 L f) :
    smallS1B (4294967295 * onesP L) (assemble L f) = assemble L (fun i => smallS1 (f i)) := by
  rw [smallS1B, natXor_eq, natXor_eq, natLand_eq, natShiftRight_eq2,
    rotrB_lanes 17 L (by norm_num) (by norm_num) f hf,
    rotrB_lanes 19 L (by norm_num) (by norm_num) f hf]
  rw [repl_eq]
  rw [assemble_shr_land 10 (by norm_num) L f _ (lanes32_512 hf)
    (fun i hi => mask_lt_sub (by norm_num))]
  rw [assemble_xor L _ _ (fun i hi => lanes32_512 (fun j hj => rotr_lt 19 _ (hf j hj)) i hi)
    (fun i hi => lt_of_le_of_lt Nat.and_le_right (by norm_num))]
  rw [assemble_xor L _ _ (fun i hi => lanes32_512 (fun j hj => rotr_lt 17 _ (hf j hj)) i hi)
    (fun i hi => lanes32_512 (fun j hj => Nat.xor_lt_two_pow (rotr_lt 19 _ (hf j hj))
      (lt_of_le_of_lt Nat.and_le_right (by norm_num : (4294967295:Nat) < 2 ^ 32))) i hi)]
  apply assemble_congr
  intro i hi
  show rotr 17 (f i) ^^^ (rotr 19 (f i) ^^^ ((f i >>> 10) &&& 4294967295)) = smallS1 (f i)
  rw [smallS1, natXor_eq, natXor_eq, natShiftRight_eq2,
    and_mask_self _ (lt_of_le_of_lt (shiftRight_le_self _ 10) (hf i hi))]

theorem chB_lanes (L : Nat) (e f g : Nat → Nat) (he : Lanes32 L e) (hf : Lanes32 L f)
    (hg : Lanes32 L g) :
    chB (4294967295 * onesP L) (assemble L e) (assemble L f) (assemble L g)
      = assemble L (fun i => ch (e i) (f i) (g i)) := by
  rw [chB, natXor_eq, natLand_eq, natLand_eq, natXor_eq, repl_eq]
  rw [assemble_land L e f (lanes32_512 he) (lanes32_512 hf)]
  rw [assemble_xor L e _ (lanes32_512 he) (fun i hi => by norm_num)]
  rw [assemble_land L _ g (fun i hi => lanes32_512 (fun j hj =>
      Nat.xor_lt_two_pow (he j hj) (by norm_num : (4294967295:Nat) < 2 ^ 32)) i hi)
    (lanes32_512 hg)]
  rw [assemble_xor L _ _ (fun i hi => lanes32_512 (fun j hj =>
      lt_of_le_of_lt Nat.and_le_left (he j hj)) i hi)
    (fun i hi => lanes32_512 (fun j hj => lt_of_le_of_lt Nat.and_le_right (hg j hj)) i hi)]
  apply assemble_congr
  intro i hi
  rw [ch, natXor_eq, natLand_eq, natLand_eq, natXor_eq]

theorem majB_lanes (L : Nat) (a b c : Nat → Nat) (ha : Lanes32 L a) (hb : Lanes32 L b)
    (hc : Lanes32 L c) :
    majB (assemble L a) (assemble L b) (assemble L c)
      = assemble L (fun i => maj (a i) (b i) (c i)) := by
  rw [majB, natXor_eq, natXor_eq, natLand_eq, natLand_eq, natLand_eq]
  rw [assemble_land L a b (lanes32_512 ha) (lanes32_512 hb)]
  rw [assemble_land L a c (lanes32_512 ha) (lanes32_512 hc)]
  rw [assemble_land L b c (lanes32_512 hb) (lanes32_512 hc)]
  rw [assemble_xor L _ _ (fun i hi => lanes32_512 (fun j hj =>
      lt_of_le_of_lt Nat.and_le_left (ha j hj)) i hi)
    (fun i hi => lanes32_512 (fun j hj => lt_of_le_of_lt Nat.and_le_left (hb j hj)) i hi)]
  rw [assemble_xor L _ _ (fun i hi => lanes32_512 (fun j hj =>
      lt_of_le_of_lt Nat.and_le_left (ha j hj)) i hi)
    (fun i hi => lanes32_512 (fun j hj => Nat.xor_lt_two_pow
      (lt_of_le_of_lt Nat.and_le_left (ha j hj))
      (lt_of_le_of_lt Nat.and_le_left (hb j hj))) i hi)]
  apply assemble_congr
  intro i hi
  rw [maj, natXor_eq, natXor_eq, natLand_eq, natLand_eq, natLand_eq]


theorem getD_map_assemble (L : Nat) : ∀ (fs : List (Nat → Nat)) (k : Nat),
    (fs.map (assemble L)).getD k 0 = assemble L (fs.getD k (fun _ => 0)) := by
  intro fs
  induction fs with
  | nil => intro k; show (0:Nat) = assemble L (fun _ => 0); rw [assemble_zero_fn]
  | cons g fs ih =>
    intro k
    cases k with
    | zero => rfl
    | succ k => exact ih k

theorem getD_map_eval (i : Nat) : ∀ (fs : List (Nat → Nat)) (k : Nat),
    (fs.map (fun g => g i)).getD k 0 = fs.getD k (fun _ => 0) i := by
  intro fs
  induction fs with
  | nil => intro k; rfl
  | cons g fs ih =>
    intro k
    cases k with
    | zero => rfl
    | succ k => exact ih k

theorem getD_lanes (L : Nat) (fs : List (Nat → Nat)) (h : ∀ g ∈ fs, Lanes32 L g) (k : Nat) :
    Lanes32 L (fs.getD k (fun _ => 0)) := by
  induction fs generalizing k with
  | nil =>
    cases k <;> exact fun i hi => by positivity
  | cons g fs ih =>
    cases k with
    | zero => exact h g (List.mem_cons_self g fs)
    | succ k => exact ih (fun g' hg' => h g' (List.mem_cons_of_mem g hg')) k

theorem small_lt_512 (x : Nat) (h : x < 2 ^ 64) : x < 2 ^ 512 :=
  lt_of_lt_of_le h (Nat.pow_le_pow_right (by norm_num) (by norm_num))

theorem schedExtB_lanes (L : Nat) : ∀ (n : Nat) (fs : List (Nat → Nat)),
    (∀ g ∈ fs, Lanes32 L g) →
    schedExtB (4294967295 * onesP L) (fs.map (assemble L)) n
      = (schedExtS fs n).map (assemble L) := by
  intro n
  induction n with
  | zero =>
    intro fs h
    show (fs.map (assemble L)).reverse = fs.reverse.map (assemble L)
    rw [List.map_reverse]
  | succ n ih =>
    intro fs h
    simp only [schedExtB]
    have hg1 := getD_lanes L fs h 1
    have hg6 := getD_lanes L fs h 6
    have hg14 := getD_lanes L fs h 14
    have hg15 := getD_lanes L fs h 15
    have hw : Nat.land (smallS1B (4294967295 * onesP L) ((fs.map (assemble L)).getD 1 0)
        + (fs.map (assemble L)).getD 6 0
        + smallS0B (4294967295 * onesP L) ((fs.map (assemble L)).getD 14 0)
        + (fs.map (assemble L)).getD 15 0) (4294967295 * onesP L)
        = assemble L (fun i => Nat.mod (smallS1 (fs.getD 1 (fun _ => 0) i)
            + fs.getD 6 (fun _ => 0) i + smallS0 (fs.getD 14 (fun _ => 0) i)
            + fs.getD 15 (fun _ => 0) i) 4294967296) := by
      rw [getD_map_assemble, getD_map_assemble, getD_map_assemble, getD_map_assemble,
        smallS1B_lanes L _ hg1, smallS0B_lanes L _ hg14,
        assemble_add, assemble_add, assemble_add, natLand_eq, repl_eq]
      rw [assemble_land L _ _ (fun i hi => small_lt_512 _ (by
          have b1 := smallS1_lt _ (hg1 i hi)
          have b6 := hg6 i hi
          have b14 := smallS0_lt _ (hg14 i hi)
          have b15 := hg15 i hi
          norm_num at b1 b6 b14 b15 ⊢
          omega))
        (fun i hi => small_lt_512 _ (by norm_num))]
      apply assemble_congr
      intro i hi
      rw [and_mask_eq, natMod_eq]
    rw [hw]
    have hstep := ih ((fun i => Nat.mod (smallS1 (fs.getD 1 (fun _ => 0) i)
        + fs.getD 6 (fun _ => 0) i + smallS0 (fs.getD 14 (fun _ => 0) i)
        + fs.getD 15 (fun _ => 0) i) 4294967296) :: fs)
      (by
        intro g hg
        rcases List.mem_cons.mp hg with h1 | h1
        · subst h1
          intro i hi
          show Nat.mod _ 4294967296 < 2 ^ 32
          rw [natMod_eq, show (4294967296:Nat) = 2 ^ 32 from by norm_num]
          exact Nat.mod_lt _ (by positivity)
        · exact h g h1)
    exact hstep

theorem schedExtS_eval (i : Nat) : ∀ (n : Nat) (fs : List (Nat → Nat)),
    (schedExtS fs n).map (fun g => g i) = schedExt (fs.map (fun g => g i)) n := by
  intro n
  induction n with
  | zero =>
    intro fs
    show fs.reverse.map (fun g => g i) = (fs.map (fun g => g i)).reverse
    rw [List.map_reverse]
  | succ n ih =>
    intro fs
    show (schedExtS (_ :: fs) n).map (fun g => g i) = _
    rw [ih]
    simp only [schedExt]
    rw [getD_map_eval, getD_map_eval, getD_map_eval, getD_map_eval]
    rfl

theorem schedExtS_bounds (L : Nat) : ∀ (n : Nat) (fs : List (Nat → Nat)),
    (∀ g ∈ fs, Lanes32 L g) → ∀ g ∈ schedExtS fs n, Lanes32 L g := by
  intro n
  induction n with
  | zero =>
    intro fs h g hg
    exact h g (List.mem_reverse.mp hg)
  | succ n ih =>
    intro fs h g hg
    refine ih _ ?_ g hg
    intro g' hg'
    rcases List.mem_cons.mp hg' with h1 | h1
    · subst h1
      intro i hi
      show Nat.mod _ 4294967296 < 2 ^ 32
      rw [natMod_eq, show (4294967296:Nat) = 2 ^ 32 from by norm_num]
      exact Nat.mod_lt _ (by positivity)
    · exact h g' h1

theorem roundsB_lanes (L : Nat) : ∀ (kl : List Nat) (wfs : List (Nat → Nat))
    (fa fb fc fd fe ff fg fh : Nat → Nat),
    (∀ k ∈ kl, k < 2 ^ 32) → (∀ w ∈ wfs, Lanes32 L w) →
    Lanes32 L fa → Lanes32 L fb → Lanes32 L fc → Lanes32 L fd →
    Lanes32 L fe → Lanes32 L ff → Lanes32 L fg → Lanes32 L fh →
    roundsB (onesP L) (4294967295 * onesP L) (kl.zip (wfs.map (assemble L)))
      ⟨assemble L fa, assemble L fb, assemble L fc, assemble L fd,
       assemble L fe, assemble L ff, assemble L fg, assemble L fh⟩
      = ⟨assemble L (fun i => (rounds (kl.zip (wfs.map (fun w => w i)))
            ⟨fa i, fb i, fc i, fd i, fe i, ff i, fg i, fh i⟩).a),
         assemble L (fun i => (rounds (kl.zip (wfs.map (fun w => w i)))
            ⟨fa i, fb i, fc i, fd i, fe i, ff i, fg i, fh i⟩).b),
         assemble L (fun i => (rounds (kl.zip (wfs.map (fun w => w i)))
            ⟨fa i, fb i, fc i, fd i, fe i, ff i, fg i, fh i⟩).c),
         assemble L (fun i => (rounds (kl.zip (wfs.map (fun w => w i)))
            ⟨fa i, fb i, fc i, fd i, fe i, ff i, fg i, fh i⟩).d),
         assemble L (fun i => (rounds (kl.zip (wfs.map (fun w => w i)))
            ⟨fa i, fb i, fc i, fd i, fe i, ff i, fg i, fh i⟩).e),
         assemble L (fun i => (rounds (kl.zip (wfs.map (fun w => w i)))
            ⟨fa i, fb i, fc i, fd i, fe i, ff i, fg i, fh i⟩).f),
         assemble L (fun i => (rounds (kl.zip (wfs.map (fun w => w i)))
            ⟨fa i, fb i, fc i, fd i, fe i, ff i, fg i, fh i⟩).g),
         assemble L (fun i => (rounds (kl.zip (wfs.map (fun w => w i)))
            ⟨fa i, fb i, fc i, fd i, fe i, ff i, fg i, fh i⟩).h)⟩ := by
  intro kl
  induction kl with
  | nil =>
    intro wfs fa fb fc fd fe ff fg fh _ _ _ _ _ _ _ _ _ _
    rfl
  | cons k kl ih =>
    intro wfs fa fb fc fd fe ff fg fh hk hw ha hb hc hd he hf hg hh
    rcases wfs with _ | ⟨w, wfs⟩
    · rfl
    · show roundsB _ _ ((k, assemble L w) :: kl.zip (wfs.map (assemble L))) _ = _
      rw [roundsB]
      have hkb : k < 2 ^ 32 := hk k (List.mem_cons_self _ _)
      have hwb : Lanes32 L w := hw w (List.mem_cons_self _ _)
      have ht1 : assemble L fh + bigS1B (4294967295 * onesP L) (assemble L fe)
          + chB (4294967295 * onesP L) (assemble L fe) (assemble L ff) (assemble L fg)
          + k * onesP L + assemble L w
          = assemble L (fun i => fh i + bigS1 (fe i) + ch (fe i) (ff i) (fg i) + k + w i) := by
        rw [bigS1B_lanes L fe he, chB_lanes L fe ff fg he hf hg, repl_eq,
          assemble_add, assemble_add, assemble_add, assemble_add]
      have ht2 : bigS0B (4294967295 * onesP L) (assemble L fa)
          + majB (assemble L fa) (assemble L fb) (assemble L fc)
          = assemble L (fun i => bigS0 (fa i) + maj (fa i) (fb i) (fc i)) := by
        rw [bigS0B_lanes L fa ha, majB_lanes L fa fb fc ha hb hc, assemble_add]
      rw [ht1, ht2]
      have hsum : ∀ i, i < L → fh i + bigS1 (fe i) + ch (fe i) (ff i) (fg i) + k + w i
          + (bigS0 (fa i) + maj (fa i) (fb i) (fc i)) < 2 ^ 64 := by
        intro i hi
        have b1 := hh i hi
        have b2 := bigS1_lt _ (he i hi)
        have b3 := ch_lt _ (ff i) _ (he i hi) (hg i hi)
        have b5 := hwb i hi
        have b6 := bigS0_lt _ (ha i hi)
        have b7 := maj_lt _ _ (fc i) (ha i hi) (hb i hi)
        norm_num at b1 b2 b3 b5 b6 b7 ⊢
        omega
      have hsum2 : ∀ i, i < L → fd i + (fh i + bigS1 (fe i) + ch (fe i) (ff i) (fg i) + k + w i)
          < 2 ^ 64 := by
        intro i hi
        have b0 := hd i hi
        have b1 := hh i hi
        have b2 := bigS1_lt _ (he i hi)
        have b3 := ch_lt _ (ff i) _ (he i hi) (hg i hi)
        have b5 := hwb i hi
        norm_num at b0 b1 b2 b3 b5 ⊢
        omega
      have hna : Nat.land (assemble L (fun i => fh i + bigS1 (fe i) + ch (fe i) (ff i) (fg i) + k + w i)
          + assemble L (fun i => bigS0 (fa i) + maj (fa i) (fb i) (fc i))) (4294967295 * onesP L)
          = assemble L (fun i => Nat.mod (fh i + bigS1 (fe i) + ch (fe i) (ff i) (fg i) + k + w i
              + (bigS0 (fa i) + maj (fa i) (fb i) (fc i))) 4294967296) := by
        rw [assemble_add, natLand_eq, repl_eq]
        rw [assemble_land L _ _ (fun i hi => small_lt_512 _ (hsum i hi))
          (fun i hi => small_lt_512 _ (by norm_num))]
        apply assemble_congr
        intro i hi
        rw [and_mask_eq, natMod_eq]
      have hne : Nat.land (assemble L fd
          + assemble L (fun i => fh i + bigS1 (fe i) + ch (fe i) (ff i) (fg i) + k + w i))
          (4294967295 * onesP L)
          = assemble L (fun i => Nat.mod (fd i
              + (fh i + bigS1 (fe i) + ch (fe i) (ff i) (fg i) + k + w i)) 4294967296) := by
        rw [assemble_add, natLand_eq, repl_eq]
        rw [assemble_land L _ _ (fun i hi => small_lt_512 _ (hsum2 i hi))
          (fun i hi => small_lt_512 _ (by norm_num))]
        apply assemble_congr
        intro i hi
        rw [and_mask_eq, natMod_eq]
      rw [hna, hne]
      have hmod32 : ∀ x : Nat, Nat.mod x 4294967296 < 2 ^ 32 := by
        intro x
        rw [natMod_eq, show (4294967296:Nat) = 2 ^ 32 from by norm_num]
        exact Nat.mod_lt _ (by positivity)
      rw [ih wfs _ fa fb fc _ fe ff fg
        (fun k' hk' => hk k' (List.mem_cons_of_mem _ hk'))
        (fun w' hw' => hw w' (List.mem_cons_of_mem _ hw'))
        (fun i hi => hmod32 _) ha hb hc (fun i hi => hmod32 _) he hf hg]
      rfl

theorem asciiRev_bytes_lt : ∀ f n b, b ∈ asciiRev f n → b < 256 := by
  intro f
  induction f with
  | zero => intro n b hb; simp [asciiRev] at hb
  | succ f ih =>
    intro n b hb
    rcases List.mem_cons.mp hb with h | h
    · subst h
      have := Nat.mod_lt n (show 0 < 10 by norm_num)
      omega
    · by_cases h10 : n / 10 = 0
      · rw [if_pos h10] at h
        simp at h
      · rw [if_neg h10] at h
        exact ih (n / 10) b h

theorem asciiL_bytes_lt (n : Nat) : ∀ b ∈ asciiL n, b < 256 := by
  intro b hb
  exact asciiRev_bytes_lt (n + 1) n b (List.mem_reverse.mp hb)

theorem msgBytesPow_bytes_lt (a q : Nat) : ∀ b ∈ msgBytesPow a q, b < 256 := by
  intro b hb
  rcases List.mem_append.mp hb with h | h
  · exact asciiL_bytes_lt a b h
  · exact asciiL_bytes_lt q b h

theorem blockNum_lt (msg : List Nat) (hb : ∀ b ∈ msg, b < 256) (hl : msg.length ≤ 55) :
    blockNum msg < 2 ^ 512 := by
  rw [blockNum]
  have h1 : bytesToNum msg < 256 ^ msg.length := bytesToNum_lt msg hb
  rw [pow256_pow2] at h1
  have h2 : bytesToNum msg * 256 + 128 + 1 ≤ 2 ^ (8 * msg.length + 8) := by
    rw [pow_add]
    have : (2:Nat) ^ 8 = 256 := by norm_num
    rw [this]
    omega
  have hB : 8 * msg.length < 2 ^ (8 * (63 - msg.length)) := by
    have hle : (2:Nat) ^ 64 ≤ 2 ^ (8 * (63 - msg.length)) :=
      Nat.pow_le_pow_right (by norm_num) (by omega)
    have : 8 * msg.length < 2 ^ 64 := by
      calc 8 * msg.length ≤ 8 * 55 := by omega
        _ < 2 ^ 64 := by norm_num
    omega
  calc (bytesToNum msg * 256 + 128) * 2 ^ (8 * (63 - msg.length)) + 8 * msg.length
      < (bytesToNum msg * 256 + 128) * 2 ^ (8 * (63 - msg.length))
        + 2 ^ (8 * (63 - msg.length)) := by omega
    _ = (bytesToNum msg * 256 + 128 + 1) * 2 ^ (8 * (63 - msg.length)) := by ring
    _ ≤ 2 ^ (8 * msg.length + 8) * 2 ^ (8 * (63 - msg.length)) := Nat.mul_le_mul_right _ h2
    _ = 2 ^ (8 * msg.length + 8 + 8 * (63 - msg.length)) := by rw [← pow_add]
    _ = 2 ^ 512 := by congr 1; omega

theorem affSum_assemble (n : Nat) (b st : Nat → Nat) : ∀ c : Nat,
    affSum (512 * n) (assemble n b) (assemble n st) c
      = assemble (c * n) (fun i => b (i % n) + (i / n) * st (i % n)) := by
  intro c
  induction c with
  | zero =>
    show (0:Nat) = assemble (0 * n) _
    rw [Nat.zero_mul]
    rfl
  | succ c ih =>
    show affSum (512 * n) (assemble n b) (assemble n st) c
        + (assemble n b + c * assemble n st) * 2 ^ (512 * n * c) = _
    rw [ih, assemble_mul, assemble_add]
    have hsplit := assemble_split (c * n) n
      (fun i => b (i % n) + (i / n) * st (i % n))
    have he : (c + 1) * n = c * n + n := by ring
    rw [he, hsplit]
    congr 1
    have hc : assemble n (fun j => b ((c * n + j) % n) + ((c * n + j) / n) * st ((c * n + j) % n))
        = assemble n (fun i => b i + c * st i) := by
      apply assemble_congr
      intro j hj
      have hn : 0 < n := by omega
      have e1 : (c * n + j) % n = j := by
        rw [Nat.mul_comm, Nat.mul_add_mod, Nat.mod_eq_of_lt hj]
      have e2 : (c * n + j) / n = c := by
        rw [Nat.mul_comm, Nat.mul_add_div hn, Nat.div_eq_of_lt hj, Nat.add_zero]
      rw [e1, e2]
    rw [hc]
    have e2 : 512 * n * c = 512 * (c * n) := by ring
    rw [e2]
    ring

theorem decNumF_one (x : Nat) : decNumF 1 x = 48 + x % 10 := by
  rw [decNumF_succ]
  show decNumF 0 (x / 10) * 256 + (48 + x % 10) = _
  have h0 : decNumF 0 (x / 10) = 0 := rfl
  rw [h0]
  ring

theorem assemble_nil (f : Nat → Nat) : assemble 0 f = 0 := rfl

theorem sufP_assemble : ∀ m, sufP m = assemble (10 ^ m) (fun i => decNumF m i) := by
  intro m
  induction m with
  | zero =>
    show (0:Nat) = assemble 1 (fun i => decNumF 0 i)
    rw [assemble_succ, assemble_nil]
    have h0 : decNumF 0 0 = 0 := rfl
    rw [h0]
    simp
  | succ m ih =>
    show affSum (512 * 10 ^ m) (48 * 256 ^ m * onesP (10 ^ m) + sufP m)
        (256 ^ m * onesP (10 ^ m)) 10 = _
    rw [repl_eq, repl_eq, ih, assemble_add, affSum_assemble]
    have e : (10:Nat) ^ (m + 1) = 10 * 10 ^ m := by ring
    rw [e]
    apply assemble_congr
    intro i hi
    have hdiv : i / 10 ^ m < 10 :=
      (Nat.div_lt_iff_lt_mul (by positivity)).mpr hi
    have hsplit := decNumF_split m (m + 1) i (by omega)
    have e1 : m + 1 - m = 1 := by omega
    rw [e1, decNumF_one, Nat.mod_eq_of_lt hdiv] at hsplit
    rw [hsplit]
    ring

theorem lane_decomp (lq m c q0 i : Nat) (hm : m + 1 ≤ lq) (halign : q0 % 10 ^ m = 0)
    (ht0c : q0 / 10 ^ m % 10 + c ≤ 10) (hi : i < c * 10 ^ m) :
    decNumF lq (q0 + i)
      = decNumF (lq - (m + 1)) (q0 / 10 ^ (m + 1)) * 256 ^ (m + 1)
        + ((48 + q0 / 10 ^ m % 10 + i / 10 ^ m) * 256 ^ m + decNumF m (i % 10 ^ m)) := by
  have hP : (0:Nat) < 10 ^ m := by positivity
  set A := q0 / 10 ^ m with hA
  set t0 := A % 10 with ht0
  set Q := A / 10 with hQ
  set t := i / 10 ^ m with ht
  set r := i % 10 ^ m with hr
  have hq0 : q0 = A * 10 ^ m := by
    rw [hA]
    exact (Nat.div_mul_cancel (Nat.dvd_of_mod_eq_zero halign)).symm
  have hAQ : A = Q * 10 + t0 := by
    rw [hQ, ht0]
    omega
  have hir : i = t * 10 ^ m + r := by
    rw [ht, hr, Nat.mul_comm]
    exact (Nat.div_add_mod i (10 ^ m)).symm
  have hrlt : r < 10 ^ m := Nat.mod_lt _ hP
  have htc : t < c := by
    rw [ht]
    exact (Nat.div_lt_iff_lt_mul hP).mpr hi
  have ht0t : t0 + t ≤ 9 := by omega
  have hPP : (10:Nat) ^ (m + 1) = 10 ^ m * 10 := by ring
  have hsum : q0 + i = Q * 10 ^ (m + 1) + ((t0 + t) * 10 ^ m + r) := by
    rw [hq0, hir, hAQ, hPP]
    ring
  have hremlt : (t0 + t) * 10 ^ m + r < 10 ^ (m + 1) := by
    rw [hPP]
    calc (t0 + t) * 10 ^ m + r < (t0 + t) * 10 ^ m + 10 ^ m := by omega
      _ = (t0 + t + 1) * 10 ^ m := by ring
      _ ≤ 10 * 10 ^ m := Nat.mul_le_mul_right _ (by omega)
      _ = 10 ^ m * 10 := by ring
  have hdivPP : (q0 + i) / 10 ^ (m + 1) = Q := by
    rw [hsum, Nat.mul_comm Q, Nat.mul_add_div (by positivity), Nat.div_eq_of_lt hremlt,
      Nat.add_zero]
  have hmodPP : (q0 + i) % 10 ^ (m + 1) = (t0 + t) * 10 ^ m + r := by
    rw [hsum, Nat.mul_comm Q, Nat.mul_add_mod, Nat.mod_eq_of_lt hremlt]
  have hQq0 : q0 / 10 ^ (m + 1) = Q := by
    rw [hQ, hA, Nat.div_div_eq_div_mul, hPP]
  have hsplit := decNumF_split (m + 1) lq (q0 + i) hm
  rw [hdivPP, hmodPP] at hsplit
  have hinner := decNumF_split m (m + 1) ((t0 + t) * 10 ^ m + r) (by omega)
  have e1 : m + 1 - m = 1 := by omega
  have hdivm : ((t0 + t) * 10 ^ m + r) / 10 ^ m = t0 + t := by
    rw [Nat.mul_comm, Nat.mul_add_div hP, Nat.div_eq_of_lt hrlt, Nat.add_zero]
  have hmodm : ((t0 + t) * 10 ^ m + r) % 10 ^ m = r := by
    rw [Nat.mul_comm, Nat.mul_add_mod, Nat.mod_eq_of_lt hrlt]
  rw [e1, hdivm, hmodm, decNumF_one, Nat.mod_eq_of_lt (by omega : t0 + t < 10)] at hinner
  rw [hinner] at hsplit
  rw [hsplit, hQq0]
  ring

theorem h8_mk_a (a b c d e f g h : Nat) : (⟨a, b, c, d, e, f, g, h⟩ : H8).a = a := rfl

theorem rounds_fields_lt : ∀ (kws : List (Nat × Nat)) (s : H8),
    s.a < 2 ^ 32 → s.b < 2 ^ 32 → s.c < 2 ^ 32 → s.d < 2 ^ 32 →
    s.e < 2 ^ 32 → s.f < 2 ^ 32 → s.g < 2 ^ 32 → s.h < 2 ^ 32 →
    (rounds kws s).a < 2 ^ 32 ∧ (rounds kws s).b < 2 ^ 32 ∧ (rounds kws s).c < 2 ^ 32
      ∧ (rounds kws s).d < 2 ^ 32 ∧ (rounds kws s).e < 2 ^ 32 ∧ (rounds kws s).f < 2 ^ 32
      ∧ (rounds kws s).g < 2 ^ 32 ∧ (rounds kws s).h < 2 ^ 32 := by
  intro kws
  induction kws with
  | nil =>
    intro s h1 h2 h3 h4 h5 h6 h7 h8
    exact ⟨h1, h2, h3, h4, h5, h6, h7, h8⟩
  | cons kw rest ih =>
    intro s h1 h2 h3 h4 h5 h6 h7 h8
    obtain ⟨k, w⟩ := kw
    obtain ⟨a, b, c, d, e, f, g, h⟩ := s
    show (rounds rest _).a < 2 ^ 32 ∧ _
    have hmod : ∀ x : Nat, Nat.mod x 4294967296 < 2 ^ 32 := by
      intro x
      rw [natMod_eq, show (4294967296:Nat) = 2 ^ 32 from by norm_num]
      exact Nat.mod_lt _ (by positivity)
    exact ih _ (hmod _) h1 h2 h3 (hmod _) h5 h6 h7

theorem zflag (t : Nat) (ht : t < 65536) :
    (t + 65535) &&& 65536 = 65536 ↔ t ≠ 0 := by
  rw [show (65536:Nat) = 2 ^ 16 from by norm_num, Nat.and_two_pow, Nat.testBit_to_div_mod]
  have h2 : (2:Nat) ^ 16 = 65536 := by norm_num
  rw [h2]
  by_cases h : t = 0
  · subst h
    norm_num
  · have hd : (t + 65535) / 65536 = 1 := by omega
    rw [hd]
    simp [h]

theorem K_lt : ∀ k ∈ K, k < 2 ^ 32 := by decide

theorem batch_sound (a lq m c q0 : Nat)
    (hm : m + 1 ≤ lq)
    (halign : q0 % 10 ^ m = 0)
    (ht0c : q0 / 10 ^ m % 10 + c ≤ 10)
    (hup : q0 + c * 10 ^ m ≤ 10 ^ lq)
    (hlow : 10 ^ (lq - 1) ≤ q0 ∨ (lq = 1 ∧ q0 = 0))
    (hlen : (asciiL a).length + lq ≤ 55)
    (heval : batchCheck a lq m c q0 = true) :
    ∀ q, q0 ≤ q → q < q0 + c * 10 ^ m → valid_proof a q = false := by
  simp only [batchCheck] at heval
  set L := c * 10 ^ m with hLdef
  set msg : Nat → List Nat := fun i => msgBytesPow a (q0 + i) with hmsg
  -- per-lane digit facts
  have hdig : ∀ i, i < L → (asciiL (q0 + i)).length = lq
      ∧ bytesToNum (asciiL (q0 + i)) = decNumF lq (q0 + i) := by
    intro i hi
    apply asciiL_spec lq (q0 + i) (by omega)
    rcases hlow with h | ⟨h1, h2⟩
    · right; omega
    · left; exact h1
  have hmsglen : ∀ i, i < L → (msg i).length = (asciiL a).length + lq := by
    intro i hi
    show (asciiL a ++ asciiL (q0 + i)).length = _
    rw [List.length_append, (hdig i hi).1]
  have hmsgbytes : ∀ i, i < L → ∀ b ∈ msg i, b < 256 := by
    intro i hi
    exact msgBytesPow_bytes_lt a (q0 + i)
  have hbound : ∀ i, i < L → blockNum (msg i) < 2 ^ 512 := by
    intro i hi
    exact blockNum_lt _ (hmsgbytes i hi) (by rw [hmsglen i hi]; omega)
  have hadd64 : ∀ x : Nat, x < 2 ^ 32 → 1779033703 + x < 2 ^ 64 := by
    intro x hx
    norm_num at hx ⊢
    omega
  have hdivadd64 : ∀ x : Nat, x < 2 ^ 32 → x / 2 ^ 16 + 65535 < 2 ^ 64 := by
    intro x hx
    have h1 : x / 2 ^ 16 ≤ x := Nat.div_le_self _ _
    norm_num at hx ⊢
    omega
  have h65536_64 : (65536:Nat) < 2 ^ 64 := by norm_num
  have h65536_512 : (65536:Nat) < 2 ^ 512 :=
    lt_of_lt_of_le (by norm_num : (65536:Nat) < 2 ^ 32)
      (Nat.pow_le_pow_right (by norm_num) (by norm_num))
  have hdiv16 : ∀ x : Nat, x < 2 ^ 32 → x / 2 ^ 16 < 65536 := by
    intro x hx
    have h1 : x / 2 ^ 16 < 2 ^ 16 := by
      refine (Nat.div_lt_iff_lt_mul (by positivity)).mpr ?_
      calc x < 2 ^ 32 := hx
        _ = 2 ^ 16 * 2 ^ 16 := by norm_num
    norm_num at h1
    exact h1
  -- the affine form of each lane block
  have hblock : ∀ i, i < L → blockNum (msg i)
      = (((bytesToNum (asciiL a) * 256 ^ lq
            + decNumF (lq - (m + 1)) (q0 / 10 ^ (m + 1)) * 256 ^ (m + 1)) * 256 + 128)
          * 2 ^ (8 * (63 - ((asciiL a).length + lq))) + 8 * ((asciiL a).length + lq))
        + ((48 + q0 / 10 ^ m % 10 + i / 10 ^ m) * 256 ^ m + decNumF m (i % 10 ^ m))
          * 2 ^ (8 * (64 - ((asciiL a).length + lq))) := by
    intro i hi
    rw [blockNum, hmsglen i hi]
    have hbtn : bytesToNum (msg i)
        = bytesToNum (asciiL a) * 256 ^ lq + decNumF lq (q0 + i) := by
      show bytesToNum (asciiL a ++ asciiL (q0 + i)) = _
      rw [bytesToNum_append, (hdig i hi).1, (hdig i hi).2]
    rw [hbtn, lane_decomp lq m c q0 i hm halign ht0c hi]
    have hexp : (2:Nat) ^ (8 * (64 - ((asciiL a).length + lq)))
        = 256 * 2 ^ (8 * (63 - ((asciiL a).length + lq))) := by
      rw [show (256:Nat) = 2 ^ 8 from by norm_num, ← pow_add]
      congr 1
      omega
    rw [hexp]
    ring
  -- the pack of lane blocks
  have hB : (((bytesToNum (asciiL a) * 256 ^ lq
        + decNumF (lq - (m + 1)) (q0 / 10 ^ (m + 1)) * 256 ^ (m + 1)) * 256 + 128)
        * 2 ^ (8 * (63 - ((asciiL a).length + lq))) + 8 * ((asciiL a).length + lq)) * onesP L
      + affSum (512 * 10 ^ m)
          ((48 + q0 / 10 ^ m % 10) * 256 ^ m * onesP (10 ^ m) + sufP m)
          (256 ^ m * onesP (10 ^ m)) c
        * 2 ^ (8 * (64 - ((asciiL a).length + lq)))
      = assemble L (fun i => blockNum (msg i)) := by
    rw [repl_eq, repl_eq, repl_eq, sufP_assemble, assemble_add, affSum_assemble]
    rw [mul_comm _ ((2:Nat) ^ (8 * (64 - ((asciiL a).length + lq)))), assemble_mul,
      assemble_add]
    apply assemble_congr
    intro i hi
    rw [hblock i hi]
    ring
  rw [hB] at heval
  -- the sixteen word packs
  set wfs : List (Nat → Nat) := (List.range 16).map
    (fun j => (fun i => blockNum (msg i) / 2 ^ (32 * (15 - j)) % 2 ^ 32)) with hwfs
  have hws : (List.range 16).map (fun j =>
        Nat.land (Nat.shiftRight (assemble L (fun i => blockNum (msg i))) (32 * (15 - j)))
          (4294967295 * onesP L))
      = wfs.map (assemble L) := by
    rw [hwfs, List.map_map]
    apply List.map_congr_left
    intro j hj
    have hjlt : j < 16 := List.mem_range.mp hj
    show Nat.land (Nat.shiftRight (assemble L (fun i => blockNum (msg i))) (32 * (15 - j)))
        (4294967295 * onesP L)
      = assemble L (fun i => blockNum (msg i) / 2 ^ (32 * (15 - j)) % 2 ^ 32)
    rw [natLand_eq, natShiftRight_eq2, repl_eq]
    rw [assemble_shr_land (32 * (15 - j)) (by omega) L _ _ hbound
      (fun i hi => mask_lt_sub (by omega))]
    apply assemble_congr
    intro i hi
    rw [and_mask_eq, Nat.shiftRight_eq_div_pow]
    rw [show (4294967296:Nat) = 2 ^ 32 from by norm_num]
  rw [hws] at heval
  have hwfsb : ∀ g ∈ wfs, Lanes32 L g := by
    intro g hg
    rw [hwfs] at hg
    rcases List.mem_map.mp hg with ⟨j, hj1, hj2⟩
    subst hj2
    intro i hi
    exact Nat.mod_lt _ (by positivity)
  have hwfsrb : ∀ g ∈ wfs.reverse, Lanes32 L g := by
    intro g hg
    exact hwfsb g (List.mem_reverse.mp hg)
  rw [← List.map_reverse] at heval
  rw [schedExtB_lanes L 48 wfs.reverse hwfsrb] at heval
  rw [repl_eq 1779033703, repl_eq 3144134277, repl_eq 1013904242, repl_eq 2773480762,
    repl_eq 1359893119, repl_eq 2600822924, repl_eq 528734635, repl_eq 1541459225] at heval
  rw [roundsB_lanes L K (schedExtS wfs.reverse 48)
    (fun _ => 1779033703) (fun _ => 3144134277) (fun _ => 1013904242) (fun _ => 2773480762)
    (fun _ => 1359893119) (fun _ => 2600822924) (fun _ => 528734635) (fun _ => 1541459225)
    K_lt (schedExtS_bounds L 48 wfs.reverse hwfsrb)
    (fun i hi => by norm_num) (fun i hi => by norm_num) (fun i hi => by norm_num)
    (fun i hi => by norm_num) (fun i hi => by norm_num) (fun i hi => by norm_num)
    (fun i hi => by norm_num) (fun i hi => by norm_num)] at heval
  -- identify the per-lane word lists with the padded block
  have hwordlist : ∀ i, i < L → wfs.map (fun w => w i) = toWords (padBytes (msg i)) := by
    intro i hi
    rw [toWords_padBytes (msg i) (hmsgbytes i hi) (by rw [hmsglen i hi]; omega), hwfs,
      List.map_map]
    rfl
  -- the digest word pack
  have houtA : Nat.land (assemble L (fun _ => 1779033703)
        + assemble L (fun i => (rounds (K.zip ((schedExtS wfs.reverse 48).map (fun w => w i)))
            ⟨1779033703, 3144134277, 1013904242, 2773480762,
             1359893119, 2600822924, 528734635, 1541459225⟩).a))
        (4294967295 * onesP L)
      = assemble L (fun i => (sha256 (msg i)).a) := by
    rw [assemble_add, natLand_eq, repl_eq]
    have hra : ∀ i, i < L → (rounds (K.zip ((schedExtS wfs.reverse 48).map (fun w => w i)))
        ⟨1779033703, 3144134277, 1013904242, 2773480762,
         1359893119, 2600822924, 528734635, 1541459225⟩).a < 2 ^ 32 := by
      intro i hi
      exact (rounds_fields_lt _ _ (by norm_num) (by norm_num) (by norm_num) (by norm_num)
        (by norm_num) (by norm_num) (by norm_num) (by norm_num)).1
    rw [assemble_land L _ _ (fun i hi => small_lt_512 _ (hadd64 _ (hra i hi)))
      (fun i hi => small_lt_512 _ (by norm_num))]
    apply assemble_congr
    intro i hi
    rw [and_mask_eq]
    have hsched : (schedExtS wfs.reverse 48).map (fun w => w i)
        = schedExt (toWords (padBytes (msg i))).reverse 48 := by
      rw [schedExtS_eval i 48 wfs.reverse, List.map_reverse, hwordlist i hi]
    rw [hsched]
    have hcomp : (sha256 (msg i)).a
        = Nat.mod (1779033703 + (rounds (K.zip (schedExt (toWords (padBytes (msg i))).reverse 48))
            ⟨1779033703, 3144134277, 1013904242, 2773480762,
             1359893119, 2600822924, 528734635, 1541459225⟩).a) 4294967296 := by
      rw [sha256_single (msg i) (hmsgbytes i hi) (by rw [hmsglen i hi]; omega)]
      rfl
    rw [hcomp, natMod_eq]
  rw [houtA] at heval
  -- the top-16-bit pack
  have ht : Nat.land (Nat.shiftRight (assemble L (fun i => (sha256 (msg i)).a)) 16)
        (65535 * onesP L)
      = assemble L (fun i => (sha256 (msg i)).a / 2 ^ 16) := by
    rw [natLand_eq, natShiftRight_eq2, repl_eq]
    rw [assemble_shr_land 16 (by norm_num) L _ _
      (fun i hi => small_lt_512 _ (lt_of_lt_of_le (sha256_a_lt _) (by norm_num)))
      (fun i hi => lt_of_lt_of_le (by norm_num : (65535:Nat) < 2 ^ 16)
        (Nat.pow_le_pow_right (by norm_num) (by norm_num)))]
    apply assemble_congr
    intro i hi
    have hsr : (sha256 (msg i)).a >>> 16 < 2 ^ 16 := by
      rw [Nat.shiftRight_eq_div_pow]
      refine (Nat.div_lt_iff_lt_mul (by positivity)).mpr ?_
      calc (sha256 (msg i)).a < 2 ^ 32 := sha256_a_lt _
        _ = 2 ^ 16 * 2 ^ 16 := by norm_num
    rw [show (65535:Nat) = 2 ^ 16 - 1 from by norm_num, Nat.and_pow_two_sub_one_eq_mod,
      Nat.mod_eq_of_lt hsr, Nat.shiftRight_eq_div_pow]
  rw [ht] at heval
  -- the final all-lanes test
  rw [repl_eq 65535, repl_eq 65536, natLand_eq, assemble_add] at heval
  have hfin : assemble L (fun i => (sha256 (msg i)).a / 2 ^ 16 + 65535)
        &&& assemble L (fun _ => 65536)
      = assemble L (fun i => ((sha256 (msg i)).a / 2 ^ 16 + 65535) &&& 65536) := by
    apply assemble_land L _ _
    · intro i hi
      exact small_lt_512 _ (hdivadd64 _ (sha256_a_lt _))
    · intro i hi
      exact small_lt_512 _ h65536_64
  rw [hfin, beq_iff_eq] at heval
  have hlanes := assemble_inj L _ _
    (fun i hi => lt_of_le_of_lt Nat.and_le_right h65536_512)
    (fun i hi => h65536_512)
    heval
  -- conclude per candidate
  intro q hq1 hq2
  have hiq : q = q0 + (q - q0) := (Nat.add_sub_cancel' hq1).symm
  have hilt : q - q0 < L := (tsub_lt_iff_left hq1).mpr hq2
  have hz := hlanes (q - q0) hilt
  have hne := (zflag _ (hdiv16 _ (sha256_a_lt _))).mp hz
  have hne2 : (sha256 (msgBytesPow a q)).a / 2 ^ 16 ≠ 0 := by
    have e : msgBytesPow a q = msg (q - q0) := by
      show msgBytesPow a q = msgBytesPow a (q0 + (q - q0))
      rw [← hiq]
    rw [e]
    exact hne
  have hvp : ¬ (valid_proof a q = true) := by
    intro hv
    exact hne2 ((valid_proof_iff a q).mp hv)
  cases hval : valid_proof a q
  · rfl
  · exact absurd hval hvp

theorem powAux_succ (last f s : Nat) : powAux last (f + 1) s
    = if valid_proof last s then some s else powAux last f (s + 1) := rfl

theorem powAux_sound : ∀ (fuel last s p : Nat), powAux last fuel s = some p →
    valid_proof last p = true ∧ s ≤ p ∧ ∀ q, s ≤ q → q < p → valid_proof last q = false := by
  intro fuel
  induction fuel with
  | zero => intro last s p h; exact absurd h (by simp [powAux])
  | succ f ih =>
    intro last s p h
    rw [powAux_succ] at h
    by_cases hv : valid_proof last s = true
    · rw [if_pos hv] at h
      obtain rfl : s = p := Option.some.injEq _ _ ▸ h
      exact ⟨hv, le_refl s, fun q hq1 hq2 => absurd (lt_of_le_of_lt hq1 hq2) (lt_irrefl s)⟩
    · rw [if_neg hv] at h
      obtain ⟨h1, h2, h3⟩ := ih last (s + 1) p h
      refine ⟨h1, by omega, ?_⟩
      intro q hq1 hq2
      by_cases hqs : q = s
      · subst hqs
        cases hvq : valid_proof last q
        · rfl
        · exact absurd hvq hv
      · exact h3 q (by omega) hq2

theorem powAux_complete : ∀ (fuel last s p : Nat), s ≤ p → p < s + fuel →
    valid_proof last p = true → (∀ q, s ≤ q → q < p → valid_proof last q = false) →
    powAux last fuel s = some p := by
  intro fuel
  induction fuel with
  | zero => intro last s p h1 h2 h3 h4; omega
  | succ f ih =>
    intro last s p h1 h2 h3 h4
    rw [powAux_succ]
    by_cases hsp : s = p
    · subst hsp
      rw [if_pos h3]
    · have hslt : s < p := by omega
      rw [if_neg (by rw [h4 s (le_refl s) hslt]; simp)]
      exact ih last (s + 1) p (by omega) (by omega) h3 (fun q hq1 hq2 => h4 q (by omega) hq2)

set_option maxRecDepth 1000000 in
set_option maxHeartbeats 80000000 in
theorem c8bA0 : batchCheck 100 1 0 10 0 = true := by decide!

set_option maxRecDepth 1000000 in
set_option maxHeartbeats 80000000 in
theorem c8bA1 : batchCheck 100 2 1 9 10 = true := by decide!

set_option maxRecDepth 1000000 in
set_option maxHeartbeats 80000000 in
theorem c8bA2 : batchCheck 100 3 2 9 100 = true := by decide!

set_option maxRecDepth 1000000 in
set_option maxHeartbeats 80000000 in
theorem c8bA3 : batchCheck 100 4 3 2 1000 = true := by decide!

set_option maxRecDepth 1000000 in
set_option maxHeartbeats 80000000 in
theorem c8bA4 : batchCheck 100 4 3 2 3000 = true := by decide!

set_option maxRecDepth 1000000 in
set_option maxHeartbeats 80000000 in
theorem c8bA5 : batchCheck 100 4 3 2 5000 = true := by decide!

set_option maxRecDepth 1000000 in
set_option maxHeartbeats 80000000 in
theorem c8bA6 : batchCheck 100 4 3 2 7000 = true := by decide!

set_option maxRecDepth 1000000 in
set_option maxHeartbeats 80000000 in
theorem c8bA7 : batchCheck 100 4 3 1 9000 = true := by decide!

set_option maxRecDepth 1000000 in
set_option maxHeartbeats 80000000 in
theorem c8bA8 : batchCheck 100 5 3 2 10000 = true := by decide!

set_option maxRecDepth 1000000 in
set_option maxHeartbeats 80000000 in
theorem c8bA9 : batchCheck 100 5 3 2 12000 = true := by decide!

set_option maxRecDepth 1000000 in
set_option maxHeartbeats 80000000 in
theorem c8bA10 : batchCheck 100 5 3 2 14000 = true := by decide!

set_option maxRecDepth 1000000 in
set_option maxHeartbeats 80000000 in
theorem c8bA11 : batchCheck 100 5 3 2 16000 = true := by decide!

set_option maxRecDepth 1000000 in
set_option maxHeartbeats 80000000 in
theorem c8bA12 : batchCheck 100 5 3 2 18000 = true := by decide!

set_option maxRecDepth 1000000 in
set_option maxHeartbeats 80000000 in
theorem c8bA13 : batchCheck 100 5 3 2 20000 = true := by decide!

set_option maxRecDepth 1000000 in
set_option maxHeartbeats 80000000 in
theorem c8bA14 : batchCheck 100 5 3 2 22000 = true := by decide!

set_option maxRecDepth 1000000 in
set_option maxHeartbeats 80000000 in
theorem c8bA15 : batchCheck 100 5 3 2 24000 = true := by decide!

set_option maxRecDepth 1000000 in
set_option maxHeartbeats 80000000 in
theorem c8bA16 : batchCheck 100 5 3 2 26000 = true := by decide!

set_option maxRecDepth 1000000 in
set_option maxHeartbeats 80000000 in
theorem c8bA17 : batchCheck 100 5 3 2 28000 = true := by decide!

set_option maxRecDepth 1000000 in
set_option maxHeartbeats 80000000 in
theorem c8bA18 : batchCheck 100 5 3 2 30000 = true := by decide!

set_option maxRecDepth 1000000 in
set_option maxHeartbeats 80000000 in
theorem c8bA19 : batchCheck 100 5 3 2 32000 = true := by decide!

set_option maxRecDepth 1000000 in
set_option maxHeartbeats 80000000 in
theorem c8bA20 : batchCheck 100 5 3 1 34000 = true := by decide!

set_option maxRecDepth 1000000 in
set_option maxHeartbeats 80000000 in
theorem c8bA21 : batchCheck 100 5 2 2 35000 = true := by decide!

set_option maxRecDepth 1000000 in
set_option maxHeartbeats 80000000 in
theorem c8bA22 : batchCheck 100 5 1 9 35200 = true := by decide!

set_option maxRecDepth 1000000 in
set_option maxHeartbeats 80000000 in
theorem c8bA23 : batchCheck 100 5 0 3 35290 = true := by decide!

set_option maxRecDepth 1000000 in
set_option maxHeartbeats 80000000 in
theorem c8bB0 : batchCheck 35293 1 0 10 0 = true := by decide!

set_option maxRecDepth 1000000 in
set_option maxHeartbeats 80000000 in
theorem c8bB1 : batchCheck 35293 2 1 9 10 = true := by decide!

set_option maxRecDepth 1000000 in
set_option maxHeartbeats 80000000 in
theorem c8bB2 : batchCheck 35293 3 2 9 100 = true := by decide!

set_option maxRecDepth 1000000 in
set_option maxHeartbeats 80000000 in
theorem c8bB3 : batchCheck 35293 4 3 2 1000 = true := by decide!

set_option maxRecDepth 1000000 in
set_option maxHeartbeats 80000000 in
theorem c8bB4 : batchCheck 35293 4 3 2 3000 = true := by decide!

set_option maxRecDepth 1000000 in
set_option maxHeartbeats 80000000 in
theorem c8bB5 : batchCheck 35293 4 3 2 5000 = true := by decide!

set_option maxRecDepth 1000000 in
set_option maxHeartbeats 80000000 in
theorem c8bB6 : batchCheck 35293 4 3 2 7000 = true := by decide!

set_option maxRecDepth 1000000 in
set_option maxHeartbeats 80000000 in
theorem c8bB7 : batchCheck 35293 4 3 1 9000 = true := by decide!

set_option maxRecDepth 1000000 in
set_option maxHeartbeats 80000000 in
theorem c8bB8 : batchCheck 35293 5 3 2 10000 = true := by decide!

set_option maxRecDepth 1000000 in
set_option maxHeartbeats 80000000 in
theorem c8bB9 : batchCheck 35293 5 3 2 12000 = true := by decide!

set_option maxRecDepth 1000000 in
set_option maxHeartbeats 80000000 in
theorem c8bB10 : batchCheck 35293 5 3 2 14000 = true := by decide!

set_option maxRecDepth 1000000 in
set_option maxHeartbeats 80000000 in
theorem c8bB11 : batchCheck 35293 5 3 2 16000 = true := by decide!

set_option maxRecDepth 1000000 in
set_option maxHeartbeats 80000000 in
theorem c8bB12 : batchCheck 35293 5 3 2 18000 = true := by decide!

set_option maxRecDepth 1000000 in
set_option maxHeartbeats 80000000 in
theorem c8bB13 : batchCheck 35293 5 3 2 20000 = true := by decide!

set_option maxRecDepth 1000000 in
set_option maxHeartbeats 80000000 in
theorem c8bB14 : batchCheck 35293 5 3 2 22000 = true := by decide!

set_option maxRecDepth 1000000 in
set_option maxHeartbeats 80000000 in
theorem c8bB15 : batchCheck 35293 5 3 2 24000 = true := by decide!

set_option maxRecDepth 1000000 in
set_option maxHeartbeats 80000000 in
theorem c8bB16 : batchCheck 35293 5 3 2 26000 = true := by decide!

set_option maxRecDepth 1000000 in
set_option maxHeartbeats 80000000 in
theorem c8bB17 : batchCheck 35293 5 3 2 28000 = true := by decide!

set_option maxRecDepth 1000000 in
set_option maxHeartbeats 80000000 in
theorem c8bB18 : batchCheck 35293 5 3 2 30000 = true := by decide!

set_option maxRecDepth 1000000 in
set_option maxHeartbeats 80000000 in
theorem c8bB19 : batchCheck 35293 5 3 2 32000 = true := by decide!

set_option maxRecDepth 1000000 in
set_option maxHeartbeats 80000000 in
theorem c8bB20 : batchCheck 35293 5 3 1 34000 = true := by decide!

set_option maxRecDepth 1000000 in
set_option maxHeartbeats 80000000 in
theorem c8bB21 : batchCheck 35293 5 1 8 35000 = true := by decide!

set_option maxRecDepth 1000000 in
set_option maxHeartbeats 80000000 in
theorem c8bB22 : batchCheck 35293 5 0 9 35080 = true := by decide!

set_option maxRecDepth 1000000 in
set_option maxHeartbeats 8000000 in
theorem c8posA : valid_proof 100 35293 = true := by decide!

set_option maxRecDepth 1000000 in
set_option maxHeartbeats 8000000 in
theorem c8posB : valid_proof 35293 35089 = true := by decide!

theorem c8failA : ∀ q, q < 35293 → valid_proof 100 q = false := by
  intro q hq
  by_cases h0 : q < 10
  · exact batch_sound 100 1 0 10 0 (by norm_num) (by norm_num) (by norm_num)
        (by norm_num) (by norm_num) (by decide) c8bA0 q (by omega) (by omega)
  by_cases h1 : q < 100
  · exact batch_sound 100 2 1 9 10 (by norm_num) (by norm_num) (by norm_num)
        (by norm_num) (by norm_num) (by decide) c8bA1 q (by omega) (by omega)
  by_cases h2 : q < 1000
  · exact batch_sound 100 3 2 9 100 (by norm_num) (by norm_num) (by norm_num)
        (by norm_num) (by norm_num) (by decide) c8bA2 q (by omega) (by omega)
  by_cases h3 : q < 3000
  · exact batch_sound 100 4 3 2 1000 (by norm_num) (by norm_num) (by norm_num)
        (by norm_num) (by norm_num) (by decide) c8bA3 q (by omega) (by omega)
  by_cases h4 : q < 5000
  · exact batch_sound 100 4 3 2 3000 (by norm_num) (by norm_num) (by norm_num)
        (by norm_num) (by norm_num) (by decide) c8bA4 q (by omega) (by omega)
  by_cases h5 : q < 7000
  · exact batch_sound 100 4 3 2 5000 (by norm_num) (by norm_num) (by norm_num)
        (by norm_num) (by norm_num) (by decide) c8bA5 q (by omega) (by omega)
  by_cases h6 : q < 9000
  · exact batch_sound 100 4 3 2 7000 (by norm_num) (by norm_num) (by norm_num)
        (by norm_num) (by norm_num) (by decide) c8bA6 q (by omega) (by omega)
  by_cases h7 : q < 10000
  · exact batch_sound 100 4 3 1 9000 (by norm_num) (by norm_num) (by norm_num)
        (by norm_num) (by norm_num) (by decide) c8bA7 q (by omega) (by omega)
  by_cases h8 : q < 12000
  · exact batch_sound 100 5 3 2 10000 (by norm_num) (by norm_num) (by norm_num)
        (by norm_num) (by norm_num) (by decide) c8bA8 q (by omega) (by omega)
  by_cases h9 : q < 14000
  · exact batch_sound 100 5 3 2 12000 (by norm_num) (by norm_num) (by norm_num)
        (by norm_num) (by norm_num) (by decide) c8bA9 q (by omega) (by omega)
  by_cases h10 : q < 16000
  · exact batch_sound 100 5 3 2 14000 (by norm_num) (by norm_num) (by norm_num)
        (by norm_num) (by norm_num) (by decide) c8bA10 q (by omega) (by omega)
  by_cases h11 : q < 18000
  · exact batch_sound 100 5 3 2 16000 (by norm_num) (by norm_num) (by norm_num)
        (by norm_num) (by norm_num) (by decide) c8bA11 q (by omega) (by omega)
  by_cases h12 : q < 20000
  · exact batch_sound 100 5 3 2 18000 (by norm_num) (by norm_num) (by norm_num)
        (by norm_num) (by norm_num) (by decide) c8bA12 q (by omega) (by omega)
  by_cases h13 : q < 22000
  · exact batch_sound 100 5 3 2 20000 (by norm_num) (by norm_num) (by norm_num)
        (by norm_num) (by norm_num) (by decide) c8bA13 q (by omega) (by omega)
  by_cases h14 : q < 24000
  · exact batch_sound 100 5 3 2 22000 (by norm_num) (by norm_num) (by norm_num)
        (by norm_num) (by norm_num) (by decide) c8bA14 q (by omega) (by omega)
  by_cases h15 : q < 26000
  · exact batch_sound 100 5 3 2 24000 (by norm_num) (by norm_num) (by norm_num)
        (by norm_num) (by norm_num) (by decide) c8bA15 q (by omega) (by omega)
  by_cases h16 : q < 28000
  · exact batch_sound 100 5 3 2 26000 (by norm_num) (by norm_num) (by norm_num)
        (by norm_num) (by norm_num) (by decide) c8bA16 q (by omega) (by omega)
  by_cases h17 : q < 30000
  · exact batch_sound 100 5 3 2 28000 (by norm_num) (by norm_num) (by norm_num)
        (by norm_num) (by norm_num) (by decide) c8bA17 q (by omega) (by omega)
  by_cases h18 : q < 32000
  · exact batch_sound 100 5 3 2 30000 (by norm_num) (by norm_num) (by norm_num)
        (by norm_num) (by norm_num) (by decide) c8bA18 q (by omega) (by omega)
  by_cases h19 : q < 34000
  · exact batch_sound 100 5 3 2 32000 (by norm_num) (by norm_num) (by norm_num)
        (by norm_num) (by norm_num) (by decide) c8bA19 q (by omega) (by omega)
  by_cases h20 : q < 35000
  · exact batch_sound 100 5 3 1 34000 (by norm_num) (by norm_num) (by norm_num)
        (by norm_num) (by norm_num) (by decide) c8bA20 q (by omega) (by omega)
  by_cases h21 : q < 35200
  · exact batch_sound 100 5 2 2 35000 (by norm_num) (by norm_num) (by norm_num)
        (by norm_num) (by norm_num) (by decide) c8bA21 q (by omega) (by omega)
  by_cases h22 : q < 35290
  · exact batch_sound 100 5 1 9 35200 (by norm_num) (by norm_num) (by norm_num)
        (by norm_num) (by norm_num) (by decide) c8bA22 q (by omega) (by omega)
  · exact batch_sound 100 5 0 3 35290 (by norm_num) (by norm_num) (by norm_num)
        (by norm_num) (by norm_num) (by decide) c8bA23 q (by omega) (by omega)

theorem c8failB : ∀ q, q < 35089 → valid_proof 35293 q = false := by
  intro q hq
  by_cases h0 : q < 10
  · exact batch_sound 35293 1 0 10 0 (by norm_num) (by norm_num) (by norm_num)
        (by norm_num) (by norm_num) (by decide) c8bB0 q (by omega) (by omega)
  by_cases h1 : q < 100
  · exact batch_sound 35293 2 1 9 10 (by norm_num) (by norm_num) (by norm_num)
        (by norm_num) (by norm_num) (by decide) c8bB1 q (by omega) (by omega)
  by_cases h2 : q < 1000
  · exact batch_sound 35293 3 2 9 100 (by norm_num) (by norm_num) (by norm_num)
        (by norm_num) (by norm_num) (by decide) c8bB2 q (by omega) (by omega)
  by_cases h3 : q < 3000
  · exact batch_sound 35293 4 3 2 1000 (by norm_num) (by norm_num) (by norm_num)
        (by norm_num) (by norm_num) (by decide) c8bB3 q (by omega) (by omega)
  by_cases h4 : q < 5000
  · exact batch_sound 35293 4 3 2 3000 (by norm_num) (by norm_num) (by norm_num)
        (by norm_num) (by norm_num) (by decide) c8bB4 q (by omega) (by omega)
  by_cases h5 : q < 7000
  · exact batch_sound 35293 4 3 2 5000 (by norm_num) (by norm_num) (by norm_num)
        (by norm_num) (by norm_num) (by decide) c8bB5 q (by omega) (by omega)
  by_cases h6 : q < 9000
  · exact batch_sound 35293 4 3 2 7000 (by norm_num) (by norm_num) (by norm_num)
        (by norm_num) (by norm_num) (by decide) c8bB6 q (by omega) (by omega)
  by_cases h7 : q < 10000
  · exact batch_sound 35293 4 3 1 9000 (by norm_num) (by norm_num) (by norm_num)
        (by norm_num) (by norm_num) (by decide) c8bB7 q (by omega) (by omega)
  by_cases h8 : q < 12000
  · exact batch_sound 35293 5 3 2 10000 (by norm_num) (by norm_num) (by norm_num)
        (by norm_num) (by norm_num) (by decide) c8bB8 q (by omega) (by omega)
  by_cases h9 : q < 14000
  · exact batch_sound 35293 5 3 2 12000 (by norm_num) (by norm_num) (by norm_num)
        (by norm_num) (by norm_num) (by decide) c8bB9 q (by omega) (by omega)
  by_cases h10 : q < 16000
  · exact batch_sound 35293 5 3 2 14000 (by norm_num) (by norm_num) (by norm_num)
        (by norm_num) (by norm_num) (by decide) c8bB10 q (by omega) (by omega)
  by_cases h11 : q < 18000
  · exact batch_sound 35293 5 3 2 16000 (by norm_num) (by norm_num) (by norm_num)
        (by norm_num) (by norm_num) (by decide) c8bB11 q (by omega) (by omega)
  by_cases h12 : q < 20000
  · exact batch_sound 35293 5 3 2 18000 (by norm_num) (by norm_num) (by norm_num)
        (by norm_num) (by norm_num) (by decide) c8bB12 q (by omega) (by omega)
  by_cases h13 : q < 22000
  · exact batch_sound 35293 5 3 2 20000 (by norm_num) (by norm_num) (by norm_num)
        (by norm_num) (by norm_num) (by decide) c8bB13 q (by omega) (by omega)
  by_cases h14 : q < 24000
  · exact batch_sound 35293 5 3 2 22000 (by norm_num) (by norm_num) (by norm_num)
        (by norm_num) (by norm_num) (by decide) c8bB14 q (by omega) (by omega)
  by_cases h15 : q < 26000
  · exact batch_sound 35293 5 3 2 24000 (by norm_num) (by norm_num) (by norm_num)
        (by norm_num) (by norm_num) (by decide) c8bB15 q (by omega) (by omega)
  by_cases h16 : q < 28000
  · exact batch_sound 35293 5 3 2 26000 (by norm_num) (by norm_num) (by norm_num)
        (by norm_num) (by norm_num) (by decide) c8bB16 q (by omega) (by omega)
  by_cases h17 : q < 30000
  · exact batch_sound 35293 5 3 2 28000 (by norm_num) (by norm_num) (by norm_num)
        (by norm_num) (by norm_num) (by decide) c8bB17 q (by omega) (by omega)
  by_cases h18 : q < 32000
  · exact batch_sound 35293 5 3 2 30000 (by norm_num) (by norm_num) (by norm_num)
        (by norm_num) (by norm_num) (by decide) c8bB18 q (by omega) (by omega)
  by_cases h19 : q < 34000
  · exact batch_sound 35293 5 3 2 32000 (by norm_num) (by norm_num) (by norm_num)
        (by norm_num) (by norm_num) (by decide) c8bB19 q (by omega) (by omega)
  by_cases h20 : q < 35000
  · exact batch_sound 35293 5 3 1 34000 (by norm_num) (by norm_num) (by norm_num)
        (by norm_num) (by norm_num) (by decide) c8bB20 q (by omega) (by omega)
  by_cases h21 : q < 35080
  · exact batch_sound 35293 5 1 8 35000 (by norm_num) (by norm_num) (by norm_num)
        (by norm_num) (by norm_num) (by decide) c8bB21 q (by omega) (by omega)
  · exact batch_sound 35293 5 0 9 35080 (by norm_num) (by norm_num) (by norm_num)
        (by norm_num) (by norm_num) (by decide) c8bB22 q (by omega) (by omega)

/-- C8: whenever the proof-of-work search returns, its result satisfies
valid_proof and is the least such candidate (the search goes upward from 0);
and the two regression fixtures hold: proof_of_work(100) = 35293 and
proof_of_work(35293) = 35089. -/
theorem c8_proof_of_work_spec :
    (∀ last fuel p, proof_of_work last fuel = some p →
      valid_proof last p = true ∧ ∀ q, q < p → valid_proof last q = false)
    ∧ proof_of_work 100 35294 = some 35293
    ∧ proof_of_work 35293 35090 = some 35089 := by
  refine ⟨?_, ?_, ?_⟩
  · intro last fuel p h
    obtain ⟨hv, hs, hint⟩ := powAux_sound fuel last 0 p h
    exact ⟨hv, fun q hq => hint q (Nat.zero_le q) hq⟩
  · exact powAux_complete 35294 100 0 35293 (by omega) (by omega) c8posA
      (fun q hq1 hq2 => c8failA q hq2)
  · exact powAux_complete 35090 35293 0 35089 (by omega) (by omega) c8posB
      (fun q hq1 hq2 => c8failB q hq2)

end NB
